import Mathlib

/-!
# FreeRide — verification of the free-model config updater

A shallow embedding of `src/freeride.py` (the OpenRouter free-models manager):
identity normalisation, catalog ranking, tier classification, the
comment-extracting tier parser, the comment-preserving merger, and the
config rewriter, together with proofs of the specification's testable
properties.

Python strings are modelled as `List Char` (`Line`); a whole file is a
`List Char` joined from lines with `'\n'`.  Python floats are modelled as
exact rationals.  The Python dict carrying the five tiers is modelled as a
function from the tier name, or as an explicit five-field structure.
-/

namespace FreeRide

/-- A Python string (a line of text or a fragment of one) as a list of
characters.  Byte-identity of texts is equality of these lists. -/
abbrev Line := List Char

/-- The whitespace characters recognised by Python's `str.strip()` /
`str.lstrip()` (the ASCII ones; the sources only ever contain ASCII). -/
def pyWs (c : Char) : Bool :=
  c == ' ' || c == '\t' || c == '\n' || c == '\r' || c == '\x0b' || c == '\x0c'

/-- Python `str.lstrip()`. -/
def lstrip (s : Line) : Line := s.dropWhile pyWs

/-- Python `str.rstrip()`. -/
def rstrip (s : Line) : Line := (s.reverse.dropWhile pyWs).reverse

/-- Python `str.strip()`. -/
def strip (s : Line) : Line := rstrip (lstrip s)

/-- `len(line) - len(line.lstrip())`, the indentation count used by
`parse_yaml_with_comments` and `save_config_with_comments`; it equals the
length of the leading-whitespace prefix. -/
def indentLen (s : Line) : Nat := (s.takeWhile pyWs).length

/-- Python `str.lower()` (the identifiers involved are ASCII). -/
def lowerStr (s : Line) : Line := s.map Char.toLower

/-- The provider prefixes stripped for comparison by `normalize_model_id`
(src/freeride.py:340), in source order. -/
def routerPrefixes : List Line :=
  ["openrouter:".toList, "anthropic:".toList, "google:".toList, "kimi:".toList,
   "exo:".toList, "nvidia:".toList, "lmstudio:".toList]

/-- Python's substring test `p in s`. -/
def isSubstring (p s : Line) : Bool := decide (p <:+: s)

/-- `normalize_model_id` (src/freeride.py:334-350): strip whitespace, remove
the first matching provider prefix (first match wins, then stop), remove one
trailing `:free`, lowercase. -/
def normalize_model_id (model_id : Line) : Line :=
  let n0 := strip model_id
  let n1 := match routerPrefixes.find? (fun p => p.isPrefixOf n0) with
    | some p => n0.drop p.length
    | none => n0
  let n2 := if (":free".toList).isSuffixOf n1 then n1.take (n1.length - 5) else n1
  lowerStr n2

/-- `format_model_for_router` (src/freeride.py:165-180): ensure a `:free`
suffix when no `:free` occurs anywhere in the id, drop a leading
`openrouter/`, and prepend the `openrouter:` scheme. -/
def format_model_for_router (model_id : Line) : Line :=
  let base0 := if isSubstring (":free".toList) model_id then model_id
               else model_id ++ ":free".toList
  let base1 := if ("openrouter/".toList).isPrefixOf base0 then
                 base0.drop ("openrouter/".toList).length
               else base0
  "openrouter:".toList ++ base1

/-- The five tier names, in the fixed order the source iterates them
(src/freeride.py:283 and 438). -/
def tierNames : List Line :=
  ["super_easy".toList, "easy".toList, "medium".toList, "hard".toList,
   "super_hard".toList]

/-- The catch-all fallback entry (src/freeride.py:253). -/
def free_router : Line := "openrouter:openrouter/free:free".toList

/-! ## Ranker (src/freeride.py:33-38, 120-162) -/

/-- `RANKING_WEIGHTS["context_length"]`. -/
def weight_context : ℚ := 4/10
/-- `RANKING_WEIGHTS["capabilities"]`. -/
def weight_capabilities : ℚ := 3/10
/-- `RANKING_WEIGHTS["recency"]`. -/
def weight_recency : ℚ := 2/10
/-- `RANKING_WEIGHTS["provider_trust"]`. -/
def weight_provider_trust : ℚ := 1/10

/-- `TRUSTED_PROVIDERS` (src/freeride.py:41-45), in order of preference. -/
def TRUSTED_PROVIDERS : List Line :=
  ["google".toList, "meta-llama".toList, "mistralai".toList, "deepseek".toList,
   "nvidia".toList, "qwen".toList, "microsoft".toList, "allenai".toList,
   "arcee-ai".toList, "liquid".toList, "stepfun".toList, "upstage".toList]

/-- One entry of the remote catalog, with the fields the core reads.
`pricing_prompt = none` models a missing or non-numeric `pricing.prompt`
(the `except (ValueError, TypeError)` path); `created = 0` models a missing
creation timestamp (`model.get("created", 0)`). -/
structure CatalogModel where
  id : Line
  pricing_prompt : Option ℚ
  context_length : Nat
  supported_parameters : List Line
  created : Nat
deriving DecidableEq

/-- `calculate_model_score` (src/freeride.py:120-150); `now` stands for
`time.time()`.  Python float arithmetic is modelled exactly over ℚ. -/
def calculate_model_score (now : ℚ) (model : CatalogModel) : ℚ :=
  let context_score : ℚ := min ((model.context_length : ℚ) / 1000000) 1
  let s1 := context_score * weight_context
  let capability_count := model.supported_parameters.length
  let capability_score : ℚ := min ((capability_count : ℚ) / 10) 1
  let s2 := s1 + capability_score * weight_capabilities
  let s3 := s2 +
    (if model.created ≠ 0 then
        (max 0 (1 - ((now - (model.created : ℚ)) / 86400) / 365)) * weight_recency
      else 0)
  let provider := if '/' ∈ model.id then model.id.takeWhile (· ≠ '/') else []
  s3 +
    (if provider ∈ TRUSTED_PROVIDERS then
        (1 - (TRUSTED_PROVIDERS.indexOf provider : ℚ) /
            (TRUSTED_PROVIDERS.length : ℚ)) * weight_provider_trust
      else 0)

/-- A catalog entry annotated with its `_score` (the `{**model, "_score": score}`
dict of src/freeride.py:158). -/
structure ScoredModel where
  id : Line
  pricing_prompt : Option ℚ
  context_length : Nat
  supported_parameters : List Line
  created : Nat
  score : ℚ
deriving DecidableEq

/-- `{**model, "_score": calculate_model_score(model)}`. -/
def annotateScore (now : ℚ) (m : CatalogModel) : ScoredModel :=
  ⟨m.id, m.pricing_prompt, m.context_length, m.supported_parameters, m.created,
   calculate_model_score now m⟩

/-- `rank_free_models` (src/freeride.py:153-162): annotate each model with its
score and sort by score descending.  Python's `list.sort` is a stable sort;
`List.mergeSort` with the reversed comparison `b.score ≤ a.score` is exactly
the stable descending-by-key sort `sort(key=..., reverse=True)` performs. -/
def rank_free_models (now : ℚ) (models : List CatalogModel) : List ScoredModel :=
  (models.map (annotateScore now)).mergeSort (fun a b => decide (b.score ≤ a.score))

/-- `filter_free_models` (src/freeride.py:95-117); the accumulator is the
`free_models` list built so far (the source consults it in the
`model not in free_models` test). -/
def filter_free_go (free_models : List CatalogModel) :
    List CatalogModel → List CatalogModel
  | [] => free_models
  | model :: rest =>
    if model.pricing_prompt = some 0 then
      filter_free_go (free_models ++ [model]) rest
    else if isSubstring (":free".toList) model.id ∧ model ∉ free_models then
      filter_free_go (free_models ++ [model]) rest
    else
      filter_free_go free_models rest

/-- `filter_free_models` (src/freeride.py:95-117). -/
def filter_free_models (models : List CatalogModel) : List CatalogModel :=
  filter_free_go [] models

/-! ## Classifier (src/freeride.py:183-226) -/

/-- Keywords of rule 1 (`super_hard`). -/
def kwSuperHard : List Line :=
  ["opus".toList, "o1".toList, "o3".toList, "deepseek-r1".toList,
   "qwen3-235b".toList, "thinking".toList]
/-- Keywords of rule 2 (`hard`). -/
def kwHard : List Line :=
  ["coder".toList, "65b".toList, "70b".toList, "405b".toList, "large".toList,
   "gemini-2.5".toList]
/-- Keywords of rule 3 (`super_easy`). -/
def kwSuperEasy : List Line :=
  ["1b".toList, "1.5b".toList, "2b".toList, "3b".toList, "gemma-2b".toList,
   "nano".toList]
/-- Keywords of rule 4 (`easy`). -/
def kwEasy : List Line :=
  ["7b".toList, "8b".toList, "9b".toList, "nano".toList, "mini".toList,
   "small".toList, "gemma".toList]
/-- Keywords of rule 5 (`medium`). -/
def kwMedium : List Line :=
  ["14b".toList, "27b".toList, "32b".toList, "flash".toList, "mistral".toList,
   "llama-3.3".toList]

/-- The short name: text after the last `/` when one occurs
(`model_id.split("/")[-1] if "/" in model_id else model_id`). -/
def afterLastSlash (s : Line) : Line :=
  if '/' ∈ s then (s.reverse.takeWhile (· ≠ '/')).reverse else s

/-- `categorize_model` (src/freeride.py:183-226).  In the source, a rule whose
keyword test succeeds but whose inner score/context test fails falls through
to the next rule; that nesting is encoded with a conjunction. -/
def categorize_model (model : ScoredModel) : Line :=
  let model_id := lowerStr model.id
  let context_length := model.context_length
  let score := model.score
  let model_name := afterLastSlash model_id
  if (kwSuperHard.any (fun x => isSubstring x model_name)) ∧
      (score > 1/2 ∨ context_length > 100000) then "super_hard".toList
  else if (kwHard.any (fun x => isSubstring x model_name)) ∧ score > 2/5 then
    "hard".toList
  else if kwSuperEasy.any (fun x => isSubstring x model_name) then
    "super_easy".toList
  else if kwEasy.any (fun x => isSubstring x model_name) then "easy".toList
  else if kwMedium.any (fun x => isSubstring x model_name) then "medium".toList
  else if context_length ≥ 128000 ∨ score > 3/5 then "hard".toList
  else if score > 7/10 then "hard".toList
  else if score > 1/2 then "medium".toList
  else if score > 3/10 then "easy".toList
  else "super_easy".toList

/-! ## Tier distribution (src/freeride.py:229-258) -/

/-- The `tiers` dict of `distribute_to_tiers`, with its five fixed keys. -/
structure Tiers where
  super_easy : List Line
  easy : List Line
  medium : List Line
  hard : List Line
  super_hard : List Line
deriving DecidableEq

/-- `tiers[name]`. -/
def Tiers.get (t : Tiers) (name : Line) : List Line :=
  if name = "super_easy".toList then t.super_easy
  else if name = "easy".toList then t.easy
  else if name = "medium".toList then t.medium
  else if name = "hard".toList then t.hard
  else if name = "super_hard".toList then t.super_hard
  else []

/-- `tiers[name].append(x)`. -/
def Tiers.push (t : Tiers) (name : Line) (x : Line) : Tiers :=
  if name = "super_easy".toList then { t with super_easy := t.super_easy ++ [x] }
  else if name = "easy".toList then { t with easy := t.easy ++ [x] }
  else if name = "medium".toList then { t with medium := t.medium ++ [x] }
  else if name = "hard".toList then { t with hard := t.hard ++ [x] }
  else if name = "super_hard".toList then { t with super_hard := t.super_hard ++ [x] }
  else t

/-- The empty tier mapping. -/
def Tiers.empty : Tiers := ⟨[], [], [], [], []⟩

/-- `distribute_to_tiers` (src/freeride.py:229-258): categorize each ranked
model into its tier (skipping a formatted id already present), then append the
catch-all `free_router` to every tier that lacks it.  The `tier_mapping`
local of the source is computed but never used, and is omitted. -/
def distribute_to_tiers (ranked_models : List ScoredModel) : Tiers :=
  let t0 := ranked_models.foldl
    (fun t model =>
      let tier := categorize_model model
      let formatted := format_model_for_router model.id
      if formatted ∈ t.get tier then t else t.push tier formatted)
    Tiers.empty
  tierNames.foldl
    (fun t name => if free_router ∈ t.get name then t else t.push name free_router)
    t0

/-! ## Tiered text parser (src/freeride.py:261-331) -/

/-- One `(model_string, is_commented)` pair extracted from a tier body. -/
abbrev TierEntry := Line × Bool

/-- Group 2 of Python's `re.search(r'#\s*(-\s*)?(.+)', stripped)`
(src/freeride.py:322) once the leading `#` has been matched: `t` is the text
following that `#`.  `\s*` and the optional `(-\s*)` are greedy; when the
final `(.+)` would be left empty the engine backtracks, first shrinking the
inner `\s*` one character at a time, then dropping the optional group, then
shrinking the outer `\s*` — which is why an all-whitespace remainder yields
its own last character, and a lone `-` yields `-`. -/
def reGroup2 (t : Line) : Option Line :=
  if t.isEmpty then none
  else
    match lstrip t with
    | [] => t.getLast?.map (fun c => [c])
    | c :: v =>
      if c = '-' then
        if v.isEmpty then some (c :: v)
        else if (lstrip v).isEmpty then v.getLast?.map (fun a => [a])
        else some (lstrip v)
      else some (c :: v)

/-- `re.search(r'#\s*(-\s*)?(.+)', s)`: try each position left to right; the
pattern can only start at a `#`, and fails there only when nothing follows. -/
def searchHashGroup2 : Line → Option Line
  | [] => none
  | c :: rest =>
    if c = '#' then
      match reGroup2 rest with
      | some g => some g
      | none => searchHashGroup2 rest
    else searchHashGroup2 rest

/-- Classification of one stripped line inside a tier body
(src/freeride.py:318-329): a comment line yields its extracted model text
(commented entry) when the regex matches, a `- ` line yields an active
entry, anything else yields nothing. -/
def entryOfLine (stripped : Line) : Option TierEntry :=
  if stripped = [] then none
  else if ("#".toList).isPrefixOf stripped ∨ ("- #".toList).isPrefixOf stripped then
    (searchHashGroup2 stripped).map (fun g => (strip g, true))
  else if ("- ".toList).isPrefixOf stripped then
    some (strip (stripped.drop 2), false)
  else none

/-- The line scan of `parse_yaml_with_comments` (src/freeride.py:283-329) for
one tier, with the `in_tier` flag explicit.  `modelsKeys` stands for
`config.get("models", {}).keys()` obtained from the generic structural YAML
parse of the same file, which this embedding takes as a parameter.  The
`indent_level` local of the source is computed but never read, and is
omitted. -/
def parseTierGo (modelsKeys : List Line) (tier_name : Line) :
    Bool → List Line → List TierEntry
  | _, [] => []
  | in_tier, line :: rest =>
    if strip line = tier_name ++ [':'] then parseTierGo modelsKeys tier_name true rest
    else if in_tier then
      let stripped := strip line
      if stripped ≠ [] ∧ indentLen line = 0 ∧ ':' ∈ stripped ∧
          (¬ (modelsKeys.any (fun t => t.isPrefixOf stripped)) ∨
            stripped.takeWhile (· ≠ ':') ≠ tier_name) then
        []
      else
        (entryOfLine stripped).toList ++ parseTierGo modelsKeys tier_name true rest
    else
      parseTierGo modelsKeys tier_name false rest

/-- `tier_comments[tier_name]` as produced by `parse_yaml_with_comments`. -/
def parse_tier_comments (modelsKeys : List Line) (tier_name : Line)
    (lines : List Line) : List TierEntry :=
  parseTierGo modelsKeys tier_name false lines

/-! ## Comment-preserving merger (src/freeride.py:353-406) -/

/-- How the merger re-emits one existing entry (src/freeride.py:389-394). -/
def renderEntry : TierEntry → Line
  | (model_str, true) => "  # - ".toList ++ model_str
  | (model_str, false) => "  - ".toList ++ model_str

/-- `has_duplicate` (src/freeride.py:353-365). -/
def has_duplicate (tier_entries : List TierEntry) (new_model : Line) : Bool :=
  tier_entries.any
    (fun e => normalize_model_id e.1 == normalize_model_id new_model)

/-- The second pass of `merge_models_with_comments` (src/freeride.py:398-404):
the new models actually appended, in order; `added_models` is the set of
normalized ids emitted so far, modelled as a list used only through
membership, and each appended model's normalized id is added to it. -/
def newModels (added_models : List Line) : List Line → List Line
  | [] => []
  | new_model :: rest =>
    let normalized := normalize_model_id new_model
    if normalized ∈ added_models then newModels added_models rest
    else new_model :: newModels (normalized :: added_models) rest

/-- `merge_models_with_comments` (src/freeride.py:368-406): first pass emits
every existing entry (commented ones as `  # - m`, active ones as `  - m`)
and records all their normalized ids; second pass appends `  - m` for each
new model whose normalized id is not yet recorded. -/
def merge_models_with_comments (tier_entries : List TierEntry)
    (new_models : List Line) : List Line :=
  tier_entries.map renderEntry ++
    (newModels (tier_entries.map (fun e => normalize_model_id e.1)) new_models).map
      (fun m => "  - ".toList ++ m)

/-! ## Config rewriter (src/freeride.py:409-492) -/

/-- The tier-body length computed by the `tier_end` scan of
`save_config_with_comments` (src/freeride.py:447-469): `rest` is the list of
lines after the tier header at index `i`, and the result is
`tier_end - (i+1)`.  A blank line leaves `tier_end` at its own index (so a
final blank is excluded but an interior one swallowed); a zero-indent line
containing `:` whose key is not a tier name stops the scan; everything else
is included. -/
def bodyLen : List Line → Nat
  | [] => 0
  | line :: rest =>
    let s := strip line
    if s = [] then (if rest = [] then 0 else 1 + bodyLen rest)
    else if indentLen line = 0 ∧ ':' ∈ s ∧ s.takeWhile (· ≠ ':') ∉ tierNames then 0
    else 1 + bodyLen rest

/-- The tier-header test of the rewriter (src/freeride.py:437-441): the first
tier name whose `name:` equals the stripped line. -/
def headerOf (line : Line) : Option Line :=
  tierNames.find? (fun T => strip line == T ++ [':'])

/-- The rewriting loop of `save_config_with_comments` (src/freeride.py:432-486)
on a list of lines.  The loop index only moves forward, at least one line per
iteration, so `fuel` (initialised to the number of lines) bounds the
iteration count without changing the result. -/
def saveGo (tier_comments : Line → List TierEntry) (new_tiers : Line → List Line) :
    Nat → List Line → List Line
  | _, [] => []
  | 0, lines => lines
  | fuel + 1, line :: rest =>
    match headerOf line with
    | some tier_name =>
      line ::
        (merge_models_with_comments (tier_comments tier_name) (new_tiers tier_name) ++
          saveGo tier_comments new_tiers fuel (rest.drop (bodyLen rest)))
    | none => line :: saveGo tier_comments new_tiers fuel rest

/-- `save_config_with_comments` (src/freeride.py:409-492) as a pure function
from the original file's lines to the rewritten file's lines;
`tier_comments` and `new_tiers` model the two dicts (read through `.get`
with default `[]`, i.e. as total functions). -/
def save_config_with_comments (tier_comments : Line → List TierEntry)
    (new_tiers : Line → List Line) (lines : List Line) : List Line :=
  saveGo tier_comments new_tiers lines.length lines

/-- Python `content.split('\n')`. -/
def splitNl : List Char → List Line
  | [] => [[]]
  | c :: rest =>
    match splitNl rest with
    | [] => [[c]]
    | l :: ls => if c = '\n' then [] :: l :: ls else (c :: l) :: ls

/-- Python `'\n'.join(lines)`. -/
def joinNl : List Line → List Char
  | [] => []
  | [l] => l
  | l :: ls => l ++ '\n' :: joinNl ls

/-- One run of the update pipeline on the file's lines, exactly as the claims
describe it: parse the tier entries (`parse_yaml_with_comments`), merge the
candidates and rewrite the tier bodies (`save_config_with_comments`, which
calls `merge_models_with_comments` per tier). -/
def updateLines (modelsKeys : List Line) (new_tiers : Line → List Line)
    (lines : List Line) : List Line :=
  save_config_with_comments (fun T => parse_tier_comments modelsKeys T lines)
    new_tiers lines

/-- The same run at the level of file contents (read, split, rewrite, join,
write). -/
def updateContent (modelsKeys : List Line) (new_tiers : Line → List Line)
    (content : List Char) : List Char :=
  joinNl (updateLines modelsKeys new_tiers (splitNl content))

/-! ## Update driver and CLI (src/freeride.py:495-610, 687-695) -/

/-- The `{"success": ..., "error"/"message": ...}` result dict of
`update_config_with_freeride`. -/
structure UpdateResult where
  success : Bool
  error : Line
deriving DecidableEq

/-- The decision structure of `update_config_with_freeride`
(src/freeride.py:495-610) over an explicit file state.  `fileContent` is the
configuration file's content (`none` when the file does not exist);
`yaml_error` models `parse_yaml_with_comments` raising inside the
`try/except` (an unparsable file); `api_key` models the resolved key of
`get_api_key`; `fetched` is the API response.  The returned pair is the
result dict and the file's content after the call.  The final
freeride-metadata rewrite (yaml.dump plus re-merge, lines 576-600) is beyond
the textual pipeline and is not modelled; it is only reached on success. -/
def update_config_with_freeride (config_path : Line)
    (fileContent : Option (List Char)) (yaml_error : Option Line)
    (modelsKeys : List Line) (api_key : Option Line)
    (fetched : List CatalogModel) (now : ℚ) :
    UpdateResult × Option (List Char) :=
  match fileContent with
  | none => (⟨false, "Config file not found: ".toList ++ config_path⟩, none)
  | some content =>
    match yaml_error with
    | some e => (⟨false, "Error reading config: ".toList ++ e⟩, some content)
    | none =>
      match api_key with
      | none =>
        (⟨false, ("No OpenRouter API key found. Set OPENROUTER_API_KEY env " ++
          "var or add to config.providers.openrouter.api_key").toList⟩, some content)
      | some _ =>
        if fetched = [] then
          (⟨false, "Failed to fetch models from OpenRouter".toList⟩, some content)
        else
          let free_models := filter_free_models fetched
          if free_models = [] then
            (⟨false, "No free models found on OpenRouter".toList⟩, some content)
          else
            let ranked := rank_free_models now free_models
            let t := distribute_to_tiers ranked
            (⟨true, []⟩, some (updateContent modelsKeys (fun T => t.get T) content))

/-- The `--update` branch of the CLI (src/freeride.py:687-695): `sys.exit(1)`
on failure, fall through (exit 0) on success. -/
def cliUpdateExitCode (r : UpdateResult) : Nat := if r.success then 0 else 1

/-! ## Auxiliary notions used by the verification -/

/-- The entries underlying the merger's output: the existing entries followed
by the appended new models as active entries.  `merge_models_with_comments`
renders exactly these (see `merge_eq_render_mergedEntries`). -/
def mergedEntries (tier_entries : List TierEntry) (new_models : List Line) :
    List TierEntry :=
  tier_entries ++
    (newModels (tier_entries.map (fun e => normalize_model_id e.1)) new_models).map
      (fun m => (m, false))

/-- The catalog entry of the spec's classification scenario: free pricing,
131072 context, created 10 days before `now` (with `now = 864001`, i.e.
`created = 1` and `now - created = 10 * 86400`). -/
def c5Model : CatalogModel :=
  ⟨"meta-llama/llama-3.1-8b".toList, some 0, 131072, [], 1⟩

/-- The parser's tier-exit condition (src/freeride.py:304-315) on one line. -/
abbrev parseBreak (modelsKeys : List Line) (tier_name line : Line) : Prop :=
  strip line ≠ [] ∧ indentLen line = 0 ∧ ':' ∈ strip line ∧
    (¬ (modelsKeys.any (fun t => t.isPrefixOf (strip line)) = true) ∨
      (strip line).takeWhile (· ≠ ':') ≠ tier_name)

/-- The goodness conditions under which a tier entry re-parses exactly. -/
def GoodEntry (e : TierEntry) : Prop :=
  e.1 ≠ [] ∧ strip e.1 = e.1 ∧ (e.2 = false → e.1.head? ≠ some '#')

/-- The rewriter's tier-exit condition (src/freeride.py:462-467) on one
line: zero indentation, a `:`, a key that is no tier name. -/
def isBreakLine (line : Line) : Prop :=
  strip line ≠ [] ∧ indentLen line = 0 ∧ ':' ∈ strip line ∧
    (strip line).takeWhile (· ≠ ':') ∉ tierNames

/-- What can follow a freshly written tier body: nothing, a line the body
scan breaks on, or one final blank line. -/
def Stops (rest : List Line) : Prop :=
  rest = [] ∨ ∃ l ls, rest = l :: ls ∧ (isBreakLine l ∨ (strip l = [] ∧ ls = []))

/-- The shape of a file the rewriter has just produced: every line is either
a copied non-header line, or a tier header followed by that tier's body block
`B T` and then a terminator (`Stops`). -/
inductive Canon (B : Line → List Line) : List Line → Prop
  | nil : Canon B []
  | copy {l ls} : headerOf l = none → Canon B ls → Canon B (l :: ls)
  | block {l T ls} : headerOf l = some T → Stops ls → Canon B ls →
      Canon B (l :: (B T ++ ls))

/-- The frame relation of the config rewriter: the output is obtained from
the input by walking it line by line, copying every line that is not a tier
header byte-identically, and at each tier header copying the header and
replacing exactly the following `bodyLen` lines (the tier's body range) with
the merger's output for that tier. -/
inductive RewriteFrame (tier_comments : Line → List TierEntry)
    (new_tiers : Line → List Line) : List Line → List Line → Prop
  | nil : RewriteFrame tier_comments new_tiers [] []
  | copy {l ls out} : headerOf l = none →
      RewriteFrame tier_comments new_tiers ls out →
      RewriteFrame tier_comments new_tiers (l :: ls) (l :: out)
  | tier {l T ls out} : headerOf l = some T →
      RewriteFrame tier_comments new_tiers (ls.drop (bodyLen ls)) out →
      RewriteFrame tier_comments new_tiers (l :: ls)
        (l :: (merge_models_with_comments (tier_comments T) (new_tiers T) ++ out))

/-! ## Basic facts about `strip` -/

theorem lstrip_cons_of_neg {c : Char} {t : Line} (h : pyWs c = false) :
    lstrip (c :: t) = c :: t := by
  unfold lstrip
  exact List.dropWhile_cons_of_neg (by simp [h])

theorem lstrip_cons_of_pos {c : Char} {t : Line} (h : pyWs c = true) :
    lstrip (c :: t) = lstrip t := by
  unfold lstrip
  exact List.dropWhile_cons_of_pos h

theorem lstrip_nil : lstrip [] = [] := rfl

theorem rstrip_nil : rstrip [] = [] := rfl

theorem lstrip_sublist (s : Line) : (lstrip s).Sublist s :=
  List.dropWhile_sublist pyWs

theorem rstrip_sublist (s : Line) : (rstrip s).Sublist s := by
  unfold rstrip
  have h := (List.dropWhile_sublist (l := s.reverse) pyWs).reverse
  simpa using h

theorem strip_sublist (s : Line) : (strip s).Sublist s :=
  (rstrip_sublist (lstrip s)).trans (lstrip_sublist s)

theorem rstrip_concat_of_neg {t : Line} {a : Char} (h : pyWs a = false) :
    rstrip (t ++ [a]) = t ++ [a] := by
  unfold rstrip
  rw [List.reverse_append]
  simp only [List.reverse_cons, List.reverse_nil, List.nil_append, List.singleton_append]
  rw [List.dropWhile_cons_of_neg (by simp [h])]
  simp

theorem rstrip_concat_of_pos {t : Line} {a : Char} (h : pyWs a = true) :
    rstrip (t ++ [a]) = rstrip t := by
  unfold rstrip
  rw [List.reverse_append]
  simp only [List.reverse_cons, List.reverse_nil, List.nil_append, List.singleton_append]
  rw [List.dropWhile_cons_of_pos h]

/-- A string whose last character is not whitespace is `rstrip`-fixed. -/
theorem rstrip_eq_self_of_getLast {s : Line}
    (h : ∀ a, s.getLast? = some a → pyWs a = false) : rstrip s = s := by
  rcases List.eq_nil_or_concat s with h0 | ⟨t, a, rfl⟩
  · subst h0; rfl
  · rw [List.concat_eq_append]
    exact rstrip_concat_of_neg (h a (by simp [List.getLast?_concat]))

/-- Conversely, a nonempty `rstrip`-fixed string ends in non-whitespace. -/
theorem getLast_of_rstrip_eq_self {s : Line} (hs : rstrip s = s)
    {a : Char} (ha : s.getLast? = some a) : pyWs a = false := by
  rcases List.getLast?_eq_some_iff.mp ha with ⟨ys, rfl⟩
  by_contra hcon
  have hws : pyWs a = true := by revert hcon; cases pyWs a <;> simp
  have := rstrip_concat_of_pos (t := ys) hws
  rw [hs] at this
  have hlen := congrArg List.length this
  have hle := (rstrip_sublist ys).length_le
  simp at hlen
  omega

/-- A nonempty `lstrip`-fixed string starts with non-whitespace. -/
theorem head_of_lstrip_eq_self {c : Char} {t : Line}
    (h : lstrip (c :: t) = c :: t) : pyWs c = false := by
  by_contra hcon
  have hws : pyWs c = true := by revert hcon; cases pyWs c <;> simp
  rw [lstrip_cons_of_pos hws] at h
  have hlen := congrArg List.length h
  have hle := (lstrip_sublist t).length_le
  simp at hlen
  omega

/-- `rstrip` leaves a string untouched when an `rstrip`-fixed nonempty block
closes it on the right. -/
theorem rstrip_append_of_rstrip_eq_self {a m : Line} (hm : rstrip m = m)
    (hne : m ≠ []) : rstrip (a ++ m) = a ++ m := by
  rcases List.eq_nil_or_concat m with h0 | ⟨t, b, rfl⟩
  · exact absurd h0 hne
  · rw [List.concat_eq_append] at hm ⊢
    rw [← List.append_assoc]
    exact rstrip_concat_of_neg
      (getLast_of_rstrip_eq_self hm (by simp [List.getLast?_concat]))

theorem lstrip_eq_self_of_strip_eq_self {m : Line} (h : strip m = m) :
    lstrip m = m := by
  have h1 := (lstrip_sublist m).length_le
  have h2 := (rstrip_sublist (lstrip m)).length_le
  unfold strip at h
  have h3 := congrArg List.length h
  exact (lstrip_sublist m).eq_of_length (by omega)

theorem rstrip_eq_self_of_strip_eq_self {m : Line} (h : strip m = m) :
    rstrip m = m := by
  have hl := lstrip_eq_self_of_strip_eq_self h
  unfold strip at h
  rw [hl] at h
  exact h

theorem strip_eq_self_of (m : Line) (hl : lstrip m = m) (hr : rstrip m = m) :
    strip m = m := by
  unfold strip
  rw [hl, hr]

theorem dropWhile_pyWs_idem (l : Line) :
    List.dropWhile pyWs (List.dropWhile pyWs l) = List.dropWhile pyWs l := by
  induction l with
  | nil => rfl
  | cons c t ih =>
    by_cases h : pyWs c = true
    · rw [List.dropWhile_cons_of_pos h]
      exact ih
    · rw [List.dropWhile_cons_of_neg h, List.dropWhile_cons_of_neg h]

theorem lstrip_idem (s : Line) : lstrip (lstrip s) = lstrip s :=
  dropWhile_pyWs_idem s

theorem rstrip_idem (s : Line) : rstrip (rstrip s) = rstrip s := by
  unfold rstrip
  simp [dropWhile_pyWs_idem]

theorem rstrip_isPrefix (s : Line) : rstrip s <+: s := by
  have h : (rstrip s).reverse <:+ s.reverse := by
    unfold rstrip
    rw [List.reverse_reverse]
    exact (List.dropWhile_suffix pyWs)
  rcases h with ⟨r, hr⟩
  refine ⟨r.reverse, ?_⟩
  have := congrArg List.reverse hr
  simpa using this

/-- `strip` is idempotent. -/
theorem strip_idem (s : Line) : strip (strip s) = strip s := by
  apply strip_eq_self_of
  · rcases h : strip s with _ | ⟨c, t⟩
    · rfl
    · apply lstrip_cons_of_neg
      have hpre : strip s <+: lstrip s := by
        unfold strip
        exact rstrip_isPrefix (lstrip s)
      rw [h] at hpre
      rcases hpre with ⟨r, hr⟩
      have hx : lstrip s = c :: (t ++ r) := by rw [← hr]; simp
      have hidem := lstrip_idem s
      rw [hx] at hidem
      exact head_of_lstrip_eq_self hidem
  · unfold strip
    exact rstrip_idem _

/-! ## The format/normalize round trip (claim C10) -/

theorem not_slash_of_append_free {model_id : Line}
    (h3 : ¬ (("openrouter/".toList) <+: model_id)) :
    ¬ (("openrouter/".toList) <+: model_id ++ ":free".toList) := by
  intro hpre
  have hlen11 : ("openrouter/".toList).length = 11 := by decide
  have hlen : 11 ≤ model_id.length + 5 := by
    have h := hpre.length_le
    simp [hlen11] at h
    omega
  rcases hpre with ⟨t, ht⟩
  have h11 : List.take 11 ("openrouter/".toList ++ t) = "openrouter/".toList := by
    conv in 11 => rw [← hlen11]
    exact List.take_left _ _
  by_cases hcase : 11 ≤ model_id.length
  · apply h3
    rw [ht, List.take_append_of_le_length hcase] at h11
    rw [← h11]
    exact List.take_prefix _ _
  · have hsplit2 : List.take 11 (model_id ++ ":free".toList) =
        model_id ++ List.take (11 - model_id.length) (":free".toList) := by
      conv_lhs => rw [show (11 : ℕ) = model_id.length + (11 - model_id.length) by omega]
      rw [List.take_append]
    have hsplit : "openrouter/".toList =
        model_id ++ List.take (11 - model_id.length) (":free".toList) := by
      rw [← h11, ht, hsplit2]
    have hdrop : List.drop model_id.length ("openrouter/".toList) =
        List.take (11 - model_id.length) (":free".toList) := by
      rw [hsplit, List.drop_left]
    set n := model_id.length with hn
    have h6 : 6 ≤ n := by omega
    have h10 : n ≤ 10 := by omega
    interval_cases n <;> exact absurd hdrop (by decide)

/-- Claim C10, amended: for an identifier that starts with none of the
normalizer's prefixes, contains no `":free"`, does not start with
`"openrouter/"` (which `format_model_for_router` strips but
`normalize_model_id` does not), and carries no surrounding whitespace, the
router-formatted entry and the raw identifier normalize identically. -/
theorem C10_roundtrip_amended (model_id : Line)
    (h1 : ∀ p ∈ routerPrefixes, ¬ (p <+: model_id))
    (h2 : ¬ ((":free".toList) <:+: model_id))
    (h3 : ¬ (("openrouter/".toList) <+: model_id))
    (h4 : strip model_id = model_id) :
    normalize_model_id (format_model_for_router model_id) =
      normalize_model_id model_id := by
  have hsub : isSubstring (":free".toList) model_id = false := by
    unfold isSubstring
    simp only [decide_eq_false_iff_not]
    exact h2
  have hnoslash := not_slash_of_append_free h3
  have hb : ("openrouter/".toList).isPrefixOf (model_id ++ ":free".toList) = false := by
    by_contra hb'
    have hb2 : ("openrouter/".toList).isPrefixOf (model_id ++ ":free".toList) = true := by
      revert hb'
      cases ("openrouter/".toList).isPrefixOf (model_id ++ ":free".toList) <;> simp
    exact hnoslash (List.isPrefixOf_iff_prefix.mp hb2)
  have hf : format_model_for_router model_id =
      "openrouter:".toList ++ (model_id ++ ":free".toList) := by
    simp only [format_model_for_router]
    rw [hsub]
    simp only [Bool.false_eq_true, if_false]
    rw [hb]
    simp only [Bool.false_eq_true, if_false]
  rw [hf]
  have hstrip1 : strip ("openrouter:".toList ++ (model_id ++ ":free".toList)) =
      "openrouter:".toList ++ (model_id ++ ":free".toList) := by
    apply strip_eq_self_of
    · have hcons : "openrouter:".toList ++ (model_id ++ ":free".toList) =
          'o' :: ("penrouter:".toList ++ (model_id ++ ":free".toList)) := by
        rfl
      rw [hcons]
      exact lstrip_cons_of_neg (by decide)
    · rw [← List.append_assoc]
      exact rstrip_append_of_rstrip_eq_self (by decide) (by decide)
  have hpre1 : ("openrouter:".toList).isPrefixOf
      ("openrouter:".toList ++ (model_id ++ ":free".toList)) = true := by
    exact List.isPrefixOf_iff_prefix.mpr (List.prefix_append _ _)
  have hsuf1 : (":free".toList).isSuffixOf (model_id ++ ":free".toList) = true :=
    List.isSuffixOf_iff_suffix.mpr (List.suffix_append _ _)
  have hfind1 : routerPrefixes.find?
      (fun p => p.isPrefixOf ("openrouter:".toList ++ (model_id ++ ":free".toList))) =
      some ("openrouter:".toList) := by
    unfold routerPrefixes
    exact List.find?_cons_of_pos _ hpre1
  have hdrop : List.drop ("openrouter:".toList).length
      ("openrouter:".toList ++ (model_id ++ ":free".toList)) =
      model_id ++ ":free".toList := List.drop_left _ _
  have harith : (model_id ++ ":free".toList).length - 5 = model_id.length := by
    simp
  have hL : normalize_model_id
      ("openrouter:".toList ++ (model_id ++ ":free".toList)) = lowerStr model_id := by
    simp only [normalize_model_id, hstrip1, hfind1, hdrop, hsuf1, if_true, harith,
      List.take_left]
  have hfind2 : routerPrefixes.find? (fun p => p.isPrefixOf model_id) = none := by
    rw [List.find?_eq_none]
    intro p hp hb
    exact h1 p hp (List.isPrefixOf_iff_prefix.mp hb)
  have hsuf2 : (":free".toList).isSuffixOf model_id = false := by
    by_contra hb'
    have hb2 : (":free".toList).isSuffixOf model_id = true := by
      revert hb'
      cases (":free".toList).isSuffixOf model_id <;> simp
    exact h2 (List.isSuffixOf_iff_suffix.mp hb2).isInfix
  have hR : normalize_model_id model_id = lowerStr model_id := by
    simp only [normalize_model_id, h4, hfind2, hsuf2, Bool.false_eq_true, if_false]
  rw [hL, hR]

/-- Claim C10 as stated is false: `"openrouter/x"` starts with none of the
normalizer's prefixes (they all end in `:`) and contains no `":free"`, yet
`format_model_for_router` strips its `openrouter/` while `normalize_model_id`
keeps it, so the two sides normalize to `"x"` and `"openrouter/x"`. -/
theorem C10_counterexample :
    (∀ p ∈ routerPrefixes, ¬ (p <+: "openrouter/x".toList)) ∧
    ¬ ((":free".toList) <:+: "openrouter/x".toList) ∧
    normalize_model_id (format_model_for_router ("openrouter/x".toList)) ≠
      normalize_model_id ("openrouter/x".toList) := by
  refine ⟨by decide, by decide, by decide⟩

/-- Witness: the amended C10 applied at a concrete identifier. -/
theorem C10_roundtrip_amended_witness :
    ((∀ p ∈ routerPrefixes, ¬ (p <+: "meta-llama/llama-3.1-8b".toList)) ∧
      ¬ ((":free".toList) <:+: "meta-llama/llama-3.1-8b".toList) ∧
      ¬ (("openrouter/".toList) <+: "meta-llama/llama-3.1-8b".toList) ∧
      strip ("meta-llama/llama-3.1-8b".toList) = "meta-llama/llama-3.1-8b".toList) ∧
    normalize_model_id (format_model_for_router ("meta-llama/llama-3.1-8b".toList)) =
      normalize_model_id ("meta-llama/llama-3.1-8b".toList) :=
  ⟨⟨by decide, by decide, by decide, by decide⟩,
    C10_roundtrip_amended _ (by decide) (by decide) (by decide) (by decide)⟩

/-! ## Facts about the merger (claims C4, C6, C8) -/

theorem merge_eq_render_mergedEntries (tier_entries : List TierEntry)
    (new_models : List Line) :
    merge_models_with_comments tier_entries new_models =
      (mergedEntries tier_entries new_models).map renderEntry := by
  unfold merge_models_with_comments mergedEntries
  rw [List.map_append, List.map_map]
  rfl

theorem newModels_subset {added new_models : List Line} :
    ∀ x ∈ newModels added new_models, x ∈ new_models := by
  induction new_models generalizing added with
  | nil => intro x hx; exact absurd hx (by simp [newModels])
  | cons c cs ih =>
    intro x hx
    unfold newModels at hx
    by_cases h : normalize_model_id c ∈ added
    · rw [if_pos h] at hx
      exact List.mem_cons_of_mem _ (ih _ hx)
    · rw [if_neg h] at hx
      rcases List.mem_cons.mp hx with h1 | h1
      · exact h1 ▸ List.mem_cons_self _ _
      · exact List.mem_cons_of_mem _ (ih _ h1)

theorem newModels_norm_not_mem {added new_models : List Line} :
    ∀ x ∈ newModels added new_models, normalize_model_id x ∉ added := by
  induction new_models generalizing added with
  | nil => intro x hx; exact absurd hx (by simp [newModels])
  | cons c cs ih =>
    intro x hx
    unfold newModels at hx
    by_cases h : normalize_model_id c ∈ added
    · rw [if_pos h] at hx
      exact ih _ hx
    · rw [if_neg h] at hx
      rcases List.mem_cons.mp hx with h1 | h1
      · rw [h1]; exact h
      · intro hmem
        exact ih _ h1 (List.mem_cons_of_mem _ hmem)

theorem newModels_norm_nodup (added new_models : List Line) :
    ((newModels added new_models).map normalize_model_id).Nodup := by
  induction new_models generalizing added with
  | nil => simp [newModels]
  | cons c cs ih =>
    unfold newModels
    by_cases h : normalize_model_id c ∈ added
    · rw [if_pos h]
      exact ih _
    · rw [if_neg h]
      rw [List.map_cons, List.nodup_cons]
      refine ⟨?_, ih _⟩
      intro hmem
      rcases List.mem_map.mp hmem with ⟨x, hx, hnx⟩
      exact newModels_norm_not_mem x hx (by rw [hnx]; exact List.mem_cons_self _ _)

theorem mem_norm_newModels {added new_models : List Line} {c : Line}
    (hc : c ∈ new_models) :
    normalize_model_id c ∈ added ∨
      normalize_model_id c ∈ (newModels added new_models).map normalize_model_id := by
  induction new_models generalizing added with
  | nil => exact absurd hc (by simp)
  | cons d cs ih =>
    unfold newModels
    by_cases h : normalize_model_id d ∈ added
    · rcases List.mem_cons.mp hc with h1 | h1
      · left; rw [h1]; exact h
      · rw [if_pos h]
        exact ih h1
    · rw [if_neg h]
      rcases List.mem_cons.mp hc with h1 | h1
      · right; rw [h1, List.map_cons]; exact List.mem_cons_self _ _
      · rcases @ih (normalize_model_id d :: added) h1 with h2 | h2
        · rcases List.mem_cons.mp h2 with h3 | h3
          · right; rw [h3, List.map_cons]; exact List.mem_cons_self _ _
          · left; exact h3
        · right; rw [List.map_cons]; exact List.mem_cons_of_mem _ h2

theorem newModels_eq_nil_of_all_skipped {added new_models : List Line}
    (h : ∀ c ∈ new_models, normalize_model_id c ∈ added) :
    newModels added new_models = [] := by
  induction new_models with
  | nil => rfl
  | cons c cs ih =>
    unfold newModels
    rw [if_pos (h c (List.mem_cons_self _ _))]
    exact ih (fun d hd => h d (List.mem_cons_of_mem _ hd))

/-- A candidate already current in the tier survives the merge through an
entry that shares its normalized identity (either an existing entry, or the
appended copy of the first same-identity candidate). -/
theorem exists_norm_in_mergedEntries (tier_entries : List TierEntry)
    (new_models : List Line) {c : Line} (hc : c ∈ new_models) :
    ∃ p ∈ mergedEntries tier_entries new_models,
      normalize_model_id p.1 = normalize_model_id c := by
  rcases @mem_norm_newModels (tier_entries.map (fun e => normalize_model_id e.1))
      _ _ hc with h | h
  · rcases List.mem_map.mp h with ⟨e, he, hne⟩
    exact ⟨e, List.mem_append_left _ he, hne⟩
  · rcases List.mem_map.mp h with ⟨x, hx, hnx⟩
    refine ⟨(x, false), List.mem_append_right _ ?_, hnx⟩
    exact List.mem_map.mpr ⟨x, hx, rfl⟩

/-- Claim C4: when the existing entries have pairwise distinct normalized
identities, no two entries of the merger's output (active or commented)
share a `NormalizedIdentity`, the output is exactly the rendered
`mergedEntries`, and a candidate whose normalized identity already occurs
among the existing entries is never appended. -/
theorem C4_dedup_invariant (tier_entries : List TierEntry) (new_models : List Line)
    (h : (tier_entries.map (fun e => normalize_model_id e.1)).Nodup) :
    ((mergedEntries tier_entries new_models).map
        (fun e => normalize_model_id e.1)).Nodup ∧
    merge_models_with_comments tier_entries new_models =
      (mergedEntries tier_entries new_models).map renderEntry ∧
    ∀ c ∈ new_models,
      normalize_model_id c ∈ tier_entries.map (fun e => normalize_model_id e.1) →
        (c, false) ∉
          (mergedEntries tier_entries new_models).drop tier_entries.length := by
  refine ⟨?_, merge_eq_render_mergedEntries _ _, ?_⟩
  · unfold mergedEntries
    rw [List.map_append, List.map_map]
    have hmm : (List.map ((fun e : TierEntry => normalize_model_id e.1) ∘
        (fun m => (m, false)))
        (newModels (tier_entries.map (fun e => normalize_model_id e.1)) new_models)) =
        (newModels (tier_entries.map (fun e => normalize_model_id e.1))
          new_models).map normalize_model_id := by
      rfl
    rw [hmm]
    refine List.Nodup.append h (newModels_norm_nodup _ _) ?_
    rw [List.disjoint_left]
    intro a ha hb
    rcases List.mem_map.mp hb with ⟨x, hx, hnx⟩
    exact newModels_norm_not_mem x hx (hnx ▸ ha)
  · intro c _ hmem hdrop
    unfold mergedEntries at hdrop
    rw [List.drop_left] at hdrop
    rcases List.mem_map.mp hdrop with ⟨x, hx, hpair⟩
    have hxc : x = c := congrArg Prod.fst hpair
    subst hxc
    exact newModels_norm_not_mem x hx hmem

/-- Witness: C4 at a concrete tier. -/
theorem C4_dedup_invariant_witness :
    (([ ("openrouter:a/b:free".toList, false), ("c/d".toList, true) ].map
        (fun e : TierEntry => normalize_model_id e.1)).Nodup) ∧
    (((mergedEntries [("openrouter:a/b:free".toList, false), ("c/d".toList, true)]
        ["a/b".toList, "e/f".toList]).map
        (fun e => normalize_model_id e.1)).Nodup ∧
      merge_models_with_comments
          [("openrouter:a/b:free".toList, false), ("c/d".toList, true)]
          ["a/b".toList, "e/f".toList] =
        (mergedEntries [("openrouter:a/b:free".toList, false), ("c/d".toList, true)]
          ["a/b".toList, "e/f".toList]).map renderEntry ∧
      ∀ c ∈ ["a/b".toList, "e/f".toList],
        normalize_model_id c ∈
            [("openrouter:a/b:free".toList, false), ("c/d".toList, true)].map
              (fun e : TierEntry => normalize_model_id e.1) →
          (c, false) ∉
            (mergedEntries [("openrouter:a/b:free".toList, false), ("c/d".toList, true)]
              ["a/b".toList, "e/f".toList]).drop 2) :=
  ⟨by decide, C4_dedup_invariant _ _ (by decide)⟩

/-- Claim C6 as stated is false at the concrete input it describes: the two
distinct candidates `openrouter:x/y:free` and `openrouter:x/y` normalize to
the same identity, yet the merge (here into an empty tier) inserts only the
first — the second pass's `added_models` check also covers candidates
appended in the same run (src/freeride.py:404 adds each appended model's
normalized id to the set before the next candidate is examined). -/
theorem C6_counterexample :
    "openrouter:x/y:free".toList ≠ "openrouter:x/y".toList ∧
    normalize_model_id ("openrouter:x/y:free".toList) =
      normalize_model_id ("openrouter:x/y".toList) ∧
    merge_models_with_comments []
        ["openrouter:x/y:free".toList, "openrouter:x/y".toList] =
      ["  - openrouter:x/y:free".toList] := by
  refine ⟨by decide, by decide, by decide⟩

/-- Claim C6, amended: the merger's duplicate check covers the candidates
appended in the same run as well, so of any two distinct same-identity
candidates at most one is appended — among the models the second pass
appends, all normalized identities are pairwise distinct. -/
theorem C6_within_batch_dedup (tier_entries : List TierEntry)
    (new_models : List Line) :
    ((newModels (tier_entries.map (fun e => normalize_model_id e.1))
        new_models).map normalize_model_id).Nodup :=
  newModels_norm_nodup _ _

/-! ## Claim C5: the classification scenario -/

/-- Claim C5 as stated is false: the scenario's model is not classified
`hard`.  Its short name `llama-3.1-8b` contains the rule-4 keyword `8b`, and
rule 4 fires before the context-length rule 6 ever runs. -/
theorem C5_counterexample :
    c5Model.pricing_prompt = some 0 ∧ c5Model.context_length = 131072 ∧
    categorize_model (annotateScore 864001 c5Model) ≠ "hard".toList := by
  refine ⟨rfl, rfl, by decide⟩

/-- Claim C5, amended: the scenario's entry is classified into tier `easy`,
because its short name contains the `easy` keyword `"8b"` (rule 4), which is
checked before the `context_length ≥ 128000` rule 6. -/
theorem C5_amended :
    categorize_model (annotateScore 864001 c5Model) = "easy".toList := by
  decide

/-! ## Claim C7: ranking stability -/

theorem rankLe_trans (a b c : ScoredModel) :
    (fun a b : ScoredModel => decide (b.score ≤ a.score)) a b = true →
    (fun a b : ScoredModel => decide (b.score ≤ a.score)) b c = true →
    (fun a b : ScoredModel => decide (b.score ≤ a.score)) a c = true := by
  simp only [decide_eq_true_iff]
  intro h1 h2
  exact le_trans h2 h1

theorem rankLe_total (a b : ScoredModel) :
    ((fun a b : ScoredModel => decide (b.score ≤ a.score)) a b ||
      (fun a b : ScoredModel => decide (b.score ≤ a.score)) b a) = true := by
  simp only [Bool.or_eq_true, decide_eq_true_iff]
  exact le_total b.score a.score

/-- Claim C7: the ranker returns the same entries annotated with their score
(a permutation of the annotated input), sorted descending by score, and
entries of any common score keep their input order (the output's restriction
to each score value equals the input's restriction). -/
theorem C7_ranking_stability (now : ℚ) (models : List CatalogModel) :
    (rank_free_models now models).Perm (models.map (annotateScore now)) ∧
    (rank_free_models now models).Pairwise (fun a b => b.score ≤ a.score) ∧
    ∀ q : ℚ, (rank_free_models now models).filter (fun m => m.score == q) =
      (models.map (annotateScore now)).filter (fun m => m.score == q) := by
  refine ⟨List.mergeSort_perm _ _, ?_, ?_⟩
  · have hs := List.sorted_mergeSort rankLe_trans rankLe_total
      (models.map (annotateScore now))
    exact hs.imp (fun h => decide_eq_true_iff.mp h)
  · intro q
    set p : ScoredModel → Bool := fun m => m.score == q with hp
    set c := (models.map (annotateScore now)).filter p with hc
    have hscore : ∀ x ∈ c, x.score = q := by
      intro x hx
      have := (List.mem_filter.mp hx).2
      rw [hp] at this
      exact beq_iff_eq.mp this
    have hpw : c.Pairwise
        (fun a b => (fun a b : ScoredModel => decide (b.score ≤ a.score)) a b = true) := by
      apply List.pairwise_of_forall_mem_list
      intro a ha b hb
      simp only [decide_eq_true_iff]
      rw [hscore a ha, hscore b hb]
    have hstable : c.Sublist (rank_free_models now models) :=
      List.sublist_mergeSort rankLe_trans rankLe_total hpw (List.filter_sublist _)
    have hcc : c.filter p = c :=
      List.filter_eq_self.mpr (fun a ha => (List.mem_filter.mp ha).2)
    have hfil : c.Sublist ((rank_free_models now models).filter p) := by
      rw [← hcc]
      exact hstable.filter p
    have hperm : ((rank_free_models now models).filter p).Perm c :=
      (List.mergeSort_perm _ _).filter p
    exact (hfil.eq_of_length (hperm.length_eq.symm)).symm

/-! ## Claim C8: the fallback guarantee -/

set_option maxHeartbeats 2000000 in
theorem mem_get_push (t : Tiers) (n n' x y : Line) (h : x ∈ t.get n') :
    x ∈ (t.push n y).get n' := by
  unfold Tiers.get at h
  unfold Tiers.get Tiers.push
  split_ifs at h ⊢ <;>
    first
      | exact List.mem_append_left _ h
      | exact h

theorem mem_get_push_self (t : Tiers) (n : Line) (hn : n ∈ tierNames) (y : Line) :
    y ∈ (t.push n y).get n := by
  fin_cases hn <;> simp +decide [Tiers.get, Tiers.push]

theorem mem_get_ensure_self (t : Tiers) (n : Line) (hn : n ∈ tierNames) :
    free_router ∈
      ((if free_router ∈ t.get n then t else t.push n free_router)).get n := by
  by_cases h : free_router ∈ t.get n
  · rw [if_pos h]; exact h
  · rw [if_neg h]; exact mem_get_push_self t n hn free_router

theorem mem_get_ensure_mono (t : Tiers) (n n' : Line)
    (h : free_router ∈ t.get n') :
    free_router ∈
      ((if free_router ∈ t.get n then t else t.push n free_router)).get n' := by
  by_cases hc : free_router ∈ t.get n
  · rw [if_pos hc]; exact h
  · rw [if_neg hc]; exact mem_get_push t n n' _ _ h

theorem free_router_mem_distribute (ranked_models : List ScoredModel) {T : Line}
    (hT : T ∈ tierNames) :
    free_router ∈ (distribute_to_tiers ranked_models).get T := by
  unfold distribute_to_tiers
  simp only [tierNames, List.foldl_cons, List.foldl_nil]
  fin_cases hT
  · apply mem_get_ensure_mono
    apply mem_get_ensure_mono
    apply mem_get_ensure_mono
    apply mem_get_ensure_mono
    exact mem_get_ensure_self _ _ (by decide)
  · apply mem_get_ensure_mono
    apply mem_get_ensure_mono
    apply mem_get_ensure_mono
    exact mem_get_ensure_self _ _ (by decide)
  · apply mem_get_ensure_mono
    apply mem_get_ensure_mono
    exact mem_get_ensure_self _ _ (by decide)
  · apply mem_get_ensure_mono
    exact mem_get_ensure_self _ _ (by decide)
  · exact mem_get_ensure_self _ _ (by decide)

/-- Claim C8: after an update each of the five tiers' candidate list contains
the catch-all `free_router` (it is appended whenever absent), and therefore
the tier's final merged entry list always contains an entry carrying the
fallback's normalized identity — an entry that can only fail to be the
literal fallback line when an existing line (active or commented) or an
earlier same-identity candidate already carries that identity, exactly the
caveat the claim states. -/
theorem C8_fallback_guarantee (ranked_models : List ScoredModel) (T : Line)
    (hT : T ∈ tierNames) (tier_entries : List TierEntry) :
    free_router ∈ (distribute_to_tiers ranked_models).get T ∧
    ∃ p ∈ mergedEntries tier_entries ((distribute_to_tiers ranked_models).get T),
      normalize_model_id p.1 = normalize_model_id free_router := by
  have h1 := free_router_mem_distribute ranked_models hT
  exact ⟨h1, exists_norm_in_mergedEntries _ _ h1⟩

/-- Witness: C8 at a concrete tier (`easy`, no catalog models, one existing
commented entry). -/
theorem C8_fallback_guarantee_witness :
    ("easy".toList ∈ tierNames) ∧
    (free_router ∈ (distribute_to_tiers []).get ("easy".toList) ∧
      ∃ p ∈ mergedEntries [("x/y".toList, true)]
          ((distribute_to_tiers []).get ("easy".toList)),
        normalize_model_id p.1 = normalize_model_id free_router) :=
  ⟨by decide, C8_fallback_guarantee [] ("easy".toList) (by decide) [("x/y".toList, true)]⟩

/-! ## Claim C9: configuration-error handling -/

/-- Claim C9: a missing configuration file, or one the YAML reader cannot
parse, makes the update return a structured failure (`success = False` with a
nonempty error message), leaves the file state untouched, and makes the CLI
exit with code 1. -/
theorem C9_config_error_handling (config_path : Line)
    (fileContent : Option (List Char)) (yaml_error : Option Line)
    (modelsKeys : List Line) (api_key : Option Line)
    (fetched : List CatalogModel) (now : ℚ)
    (herr : fileContent = none ∨ yaml_error.isSome = true) :
    (update_config_with_freeride config_path fileContent yaml_error modelsKeys
        api_key fetched now).1.success = false ∧
    (update_config_with_freeride config_path fileContent yaml_error modelsKeys
        api_key fetched now).1.error ≠ [] ∧
    (update_config_with_freeride config_path fileContent yaml_error modelsKeys
        api_key fetched now).2 = fileContent ∧
    cliUpdateExitCode (update_config_with_freeride config_path fileContent
        yaml_error modelsKeys api_key fetched now).1 = 1 := by
  rcases hf : fileContent with _ | content
  · simp [update_config_with_freeride, cliUpdateExitCode]
  · rcases hy : yaml_error with _ | e
    · rcases herr with h | h
      · exact absurd (hf ▸ h) (by simp)
      · exact absurd (hy ▸ h) (by simp)
    · simp [update_config_with_freeride, cliUpdateExitCode]

/-- Witness: C9 at a concrete missing file. -/
theorem C9_config_error_handling_witness :
    ((none : Option (List Char)) = none ∨ (none : Option Line).isSome = true) ∧
    ((update_config_with_freeride ("config.yaml".toList) none none [] none [] 0).1.success
        = false ∧
      (update_config_with_freeride ("config.yaml".toList) none none [] none [] 0).1.error
        ≠ [] ∧
      (update_config_with_freeride ("config.yaml".toList) none none [] none [] 0).2
        = none ∧
      cliUpdateExitCode
        (update_config_with_freeride ("config.yaml".toList) none none [] none [] 0).1
        = 1) :=
  ⟨Or.inl rfl,
    C9_config_error_handling ("config.yaml".toList) none none [] none [] 0 (Or.inl rfl)⟩

/-! ## Facts about the comment regex and entry extraction -/

theorem getLast?_of_suffix {s t : Line} (h : s <:+ t) (hne : s ≠ []) :
    t.getLast? = s.getLast? := by
  rcases h with ⟨r, rfl⟩
  rw [List.getLast?_append]
  rcases List.eq_nil_or_concat s with h0 | ⟨ys, a, rfl⟩
  · exact absurd h0 hne
  · rw [List.concat_eq_append, List.getLast?_concat]
    rfl

theorem strip_ne_nil {d : Line} {c : Char} (hc : c ∈ d) (hws : pyWs c = false) :
    strip d ≠ [] := by
  intro hstrip
  unfold strip at hstrip
  have hall : ∀ x ∈ lstrip d, pyWs x = true := by
    intro x hx
    have h1 : (lstrip d).reverse.dropWhile pyWs = [] := by
      have := congrArg List.reverse hstrip
      unfold rstrip at this
      simpa using this
    exact List.dropWhile_eq_nil_iff.mp h1 x (by simpa using hx)
  rcases (List.takeWhile_append_dropWhile (p := pyWs) (l := d)) with hsplit
  have hc2 : c ∈ d.takeWhile pyWs ∨ c ∈ lstrip d := by
    have : c ∈ d.takeWhile pyWs ++ d.dropWhile pyWs := by rw [hsplit]; exact hc
    simpa [lstrip] using List.mem_append.mp this
  rcases hc2 with h | h
  · rw [List.mem_takeWhile_imp h] at hws
    exact absurd hws (by simp)
  · rw [hall c h] at hws
    exact absurd hws (by simp)

/-- A string with a non-whitespace last character has a nonempty `lstrip`,
whose last character is the same and whose `strip` is itself. -/
theorem lstrip_last_facts {v : Line} (hvne : v ≠ [])
    (hlast : ∀ a, v.getLast? = some a → pyWs a = false) :
    lstrip v ≠ [] ∧ (∀ a, (lstrip v).getLast? = some a → pyWs a = false) ∧
      strip (lstrip v) = lstrip v := by
  rcases List.eq_nil_or_concat v with h0 | ⟨ys, b, hv⟩
  · exact absurd h0 hvne
  have hb : pyWs b = false := by
    apply hlast
    rw [hv, List.concat_eq_append, List.getLast?_concat]
  have hne : lstrip v ≠ [] := by
    intro hu
    have hall := List.dropWhile_eq_nil_iff.mp hu
    have hbmem : b ∈ v := by rw [hv]; simp [List.concat_eq_append]
    rw [hall b hbmem] at hb
    exact absurd hb (by simp)
  have htrans : v.getLast? = (lstrip v).getLast? :=
    getLast?_of_suffix (List.dropWhile_suffix pyWs) hne
  have hlast' : ∀ a, (lstrip v).getLast? = some a → pyWs a = false := by
    intro a ha
    exact hlast a (htrans ▸ ha)
  refine ⟨hne, hlast', ?_⟩
  apply strip_eq_self_of
  · exact lstrip_idem v
  · exact rstrip_eq_self_of_getLast hlast'

theorem reGroup2_spec {t : Line} (hne : t ≠ [])
    (hlast : ∀ a, t.getLast? = some a → pyWs a = false) :
    ∃ g, reGroup2 t = some g ∧ g ≠ [] ∧ strip g = g ∧ g.Sublist t := by
  obtain ⟨hu_ne, hu_last, hu_strip⟩ := lstrip_last_facts hne hlast
  have hu_suffix : lstrip t <:+ t := List.dropWhile_suffix pyWs
  have hEmpty : t.isEmpty = false := by
    rcases t with _ | ⟨c, t'⟩
    · exact absurd rfl hne
    · rfl
  rcases hu : lstrip t with _ | ⟨c, v⟩
  · exact absurd hu hu_ne
  by_cases hc : c = '-'
  · subst hc
    rcases hv : v with _ | ⟨d, w⟩
    · -- lstrip t = ['-']: the optional group is dropped and group 2 is "-"
      refine ⟨['-'], ?_, by simp, by decide, ?_⟩
      · unfold reGroup2
        rw [if_neg (by simp [hEmpty]), hu, hv]
        simp
      · have hu2 : lstrip t = ['-'] := by rw [hu, hv]
        rw [← hu2]
        exact hu_suffix.sublist
    · -- v nonempty: group 2 is lstrip v, nonempty since v ends in non-whitespace
      subst hv
      have hv_ne : (d :: w) ≠ [] := by simp
      have hv_suffix : (d :: w) <:+ lstrip t := by
        rw [hu]
        exact List.suffix_cons '-' (d :: w)
      have hv_last : ∀ a, (d :: w).getLast? = some a → pyWs a = false := by
        intro a ha
        apply hu_last
        rw [getLast?_of_suffix hv_suffix hv_ne]
        exact ha
      obtain ⟨hr_ne, hr_last, hr_strip⟩ := lstrip_last_facts hv_ne hv_last
      refine ⟨lstrip (d :: w), ?_, hr_ne, hr_strip, ?_⟩
      · simp [reGroup2, hEmpty, hu, List.isEmpty_iff, hr_ne]
      · exact ((List.dropWhile_suffix pyWs).trans
          (hv_suffix.trans hu_suffix)).sublist
  · -- head is not '-': group 2 is lstrip t itself
    refine ⟨c :: v, ?_, by simp, ?_, ?_⟩
    · unfold reGroup2
      rw [if_neg (by simp [hEmpty]), hu]
      simp only [if_neg hc]
    · rw [← hu]
      exact hu_strip
    · rw [← hu]
      exact hu_suffix.sublist

theorem searchHashGroup2_spec {s : Line}
    (hlast : ∀ a, s.getLast? = some a → pyWs a = false) :
    ∀ g, searchHashGroup2 s = some g → g ≠ [] ∧ strip g = g ∧ g.Sublist s := by
  induction s with
  | nil => intro g hg; exact absurd hg (by simp [searchHashGroup2])
  | cons c rest ih =>
    intro g hg
    have hlast' : ∀ a, rest.getLast? = some a → pyWs a = false := by
      intro a ha
      rcases hr0 : rest with _ | ⟨d, r⟩
      · rw [hr0] at ha; exact absurd ha (by simp)
      · apply hlast
        rw [getLast?_of_suffix (List.suffix_cons c rest) (by rw [hr0]; simp)]
        exact ha
    unfold searchHashGroup2 at hg
    by_cases hc : c = '#'
    · rw [if_pos hc] at hg
      rcases hre : reGroup2 rest with _ | g'
      · rw [hre] at hg
        simp only [] at hg
        obtain ⟨h1, h2, h3⟩ := ih hlast' g hg
        exact ⟨h1, h2, h3.cons c⟩
      · rw [hre] at hg
        simp only [] at hg
        have hrne : rest ≠ [] := by
          intro h0
          rw [h0] at hre
          exact absurd hre (by simp [reGroup2])
        obtain ⟨g'', hg'', hne'', hstr'', hsub''⟩ := reGroup2_spec hrne hlast'
        rw [hre] at hg''
        have hgg : g' = g'' := by injection hg''
        have hgg2 : g = g' := by injection hg with h; exact h.symm
        subst hgg2
        rw [hgg]
        exact ⟨hne'', hstr'', hsub''.cons c⟩
    · rw [if_neg hc] at hg
      obtain ⟨h1, h2, h3⟩ := ih hlast' g hg
      exact ⟨h1, h2, h3.cons c⟩

/-- The regex search on the canonical commented form `"# - " ++ m`. -/
theorem searchHash_canonical {m : Line} (hm : lstrip m = m) (hne : m ≠ []) :
    searchHashGroup2 ('#' :: ' ' :: '-' :: ' ' :: m) = some m := by
  have hls : lstrip (' ' :: '-' :: ' ' :: m) = '-' :: ' ' :: m := by
    rw [lstrip_cons_of_pos (by decide), lstrip_cons_of_neg (by decide)]
  have hls2 : lstrip (' ' :: m) = m := by
    rw [lstrip_cons_of_pos (by decide)]
    exact hm
  have hre : reGroup2 (' ' :: '-' :: ' ' :: m) = some m := by
    simp [reGroup2, hls, hls2, List.isEmpty_iff, hne]
  unfold searchHashGroup2
  rw [if_pos rfl, hre]

/-- `entryOfLine` on the canonical commented body text. -/
theorem entryOfLine_commented {m : Line} (hstr : strip m = m) (hne : m ≠ []) :
    entryOfLine ("# - ".toList ++ m) = some (m, true) := by
  have hsh : "# - ".toList ++ m = '#' :: ' ' :: '-' :: ' ' :: m := rfl
  rw [hsh]
  unfold entryOfLine
  rw [if_neg (by simp)]
  have hp : ("#".toList).isPrefixOf ('#' :: ' ' :: '-' :: ' ' :: m) = true :=
    List.isPrefixOf_iff_prefix.mpr ⟨' ' :: '-' :: ' ' :: m, rfl⟩
  rw [if_pos (Or.inl hp)]
  rw [searchHash_canonical (lstrip_eq_self_of_strip_eq_self hstr) hne]
  simp [hstr]

/-- `entryOfLine` on the canonical active body text. -/
theorem entryOfLine_active {m : Line} (hstr : strip m = m) (hne : m ≠ [])
    (hh : m.head? ≠ some '#') :
    entryOfLine ("- ".toList ++ m) = some (m, false) := by
  have hsh : "- ".toList ++ m = '-' :: ' ' :: m := rfl
  rw [hsh]
  unfold entryOfLine
  rw [if_neg (by simp)]
  rw [if_neg ?hOr]
  case hOr =>
    intro hor
    rcases hor with h | h
    · have := List.isPrefixOf_iff_prefix.mp h
      rw [show ("#".toList) = ['#'] from rfl] at this
      rw [List.cons_prefix_cons] at this
      exact absurd this.1 (by decide)
    · have := List.isPrefixOf_iff_prefix.mp h
      rw [show ("- #".toList) = ['-', ' ', '#'] from rfl] at this
      rw [List.cons_prefix_cons] at this
      rw [List.cons_prefix_cons] at this
      rcases m with _ | ⟨c0, m'⟩
      · exact hne rfl
      · rw [List.cons_prefix_cons] at this
        apply hh
        rw [this.2.2.1]
        rfl
  have hp2 : ("- ".toList).isPrefixOf ('-' :: ' ' :: m) = true :=
    List.isPrefixOf_iff_prefix.mpr ⟨m, rfl⟩
  rw [if_pos hp2]
  simp [hstr]

/-- `strip` of a rendered active line. -/
theorem strip_render_active {m : Line} (hstr : strip m = m) (hne : m ≠ []) :
    strip ("  - ".toList ++ m) = "- ".toList ++ m := by
  unfold strip
  have h1 : lstrip ("  - ".toList ++ m) = "- ".toList ++ m := by
    show lstrip (' ' :: ' ' :: '-' :: ' ' :: m) = '-' :: ' ' :: m
    rw [lstrip_cons_of_pos (by decide), lstrip_cons_of_pos (by decide),
      lstrip_cons_of_neg (by decide)]
  rw [h1]
  show rstrip (['-', ' '] ++ m) = ['-', ' '] ++ m
  exact rstrip_append_of_rstrip_eq_self (rstrip_eq_self_of_strip_eq_self hstr) hne

/-- `strip` of a rendered commented line. -/
theorem strip_render_commented {m : Line} (hstr : strip m = m) (hne : m ≠ []) :
    strip ("  # - ".toList ++ m) = "# - ".toList ++ m := by
  unfold strip
  have h1 : lstrip ("  # - ".toList ++ m) = "# - ".toList ++ m := by
    show lstrip (' ' :: ' ' :: '#' :: ' ' :: '-' :: ' ' :: m) = '#' :: ' ' :: '-' :: ' ' :: m
    rw [lstrip_cons_of_pos (by decide), lstrip_cons_of_pos (by decide),
      lstrip_cons_of_neg (by decide)]
  rw [h1]
  show rstrip (['#', ' ', '-', ' '] ++ m) = ['#', ' ', '-', ' '] ++ m
  exact rstrip_append_of_rstrip_eq_self (rstrip_eq_self_of_strip_eq_self hstr) hne

/-- A rendered active line is non-blank, indented, and no tier header. -/
theorem renderLine_facts_active {m : Line} (hstr : strip m = m) (hne : m ≠ []) :
    strip ("  - ".toList ++ m) ≠ [] ∧ indentLen ("  - ".toList ++ m) ≠ 0 ∧
      headerOf ("  - ".toList ++ m) = none := by
  refine ⟨?_, ?_, ?_⟩
  · rw [strip_render_active hstr hne]
    simp
  · show (List.takeWhile pyWs (' ' :: ' ' :: '-' :: ' ' :: m)).length ≠ 0
    rw [List.takeWhile_cons_of_pos (by decide)]
    simp
  · unfold headerOf
    rw [List.find?_eq_none]
    intro T hT hbeq
    have heq : strip ("  - ".toList ++ m) = T ++ [':'] := by
      exact beq_iff_eq.mp hbeq
    rw [strip_render_active hstr hne] at heq
    fin_cases hT <;> simp at heq

/-- A rendered commented line is non-blank, indented, and no tier header. -/
theorem renderLine_facts_commented {m : Line} (hstr : strip m = m) (hne : m ≠ []) :
    strip ("  # - ".toList ++ m) ≠ [] ∧ indentLen ("  # - ".toList ++ m) ≠ 0 ∧
      headerOf ("  # - ".toList ++ m) = none := by
  refine ⟨?_, ?_, ?_⟩
  · rw [strip_render_commented hstr hne]
    simp
  · show (List.takeWhile pyWs (' ' :: ' ' :: '#' :: ' ' :: '-' :: ' ' :: m)).length ≠ 0
    rw [List.takeWhile_cons_of_pos (by decide)]
    simp
  · unfold headerOf
    rw [List.find?_eq_none]
    intro T hT hbeq
    have heq : strip ("  # - ".toList ++ m) = T ++ [':'] := by
      exact beq_iff_eq.mp hbeq
    rw [strip_render_commented hstr hne] at heq
    fin_cases hT <;> simp at heq

/-- Every entry the line classifier produces from a stripped line has
nonempty stripped text drawn from that line. -/
theorem entryOfLine_spec {s : Line} (hs : strip s = s) :
    ∀ {m : Line} {c : Bool}, entryOfLine s = some (m, c) →
      m ≠ [] ∧ strip m = m ∧ m.Sublist s := by
  intro m c h
  unfold entryOfLine at h
  by_cases h0 : s = []
  · rw [if_pos h0] at h
    exact absurd h (by simp)
  rw [if_neg h0] at h
  have hlast : ∀ a, s.getLast? = some a → pyWs a = false :=
    fun a ha => getLast_of_rstrip_eq_self (rstrip_eq_self_of_strip_eq_self hs) ha
  by_cases h1 : ("#".toList).isPrefixOf s = true ∨ ("- #".toList).isPrefixOf s = true
  · rw [if_pos h1] at h
    rcases hsg : searchHashGroup2 s with _ | g
    · rw [hsg] at h
      exact absurd h (by simp)
    · rw [hsg] at h
      obtain ⟨hg1, hg2, hg3⟩ := searchHashGroup2_spec hlast g hsg
      have hm : m = strip g := by
        have hmc : (strip g, true) = (m, c) := by
          simpa using h
        exact (congrArg Prod.fst hmc).symm
      rw [hm, hg2]
      exact ⟨hg1, hg2 ▸ strip_idem g, hg3⟩
  · rw [if_neg h1] at h
    by_cases h2 : ("- ".toList).isPrefixOf s = true
    · rw [if_pos h2] at h
      have hm : m = strip (s.drop 2) := by
        have hmc : (strip (s.drop 2), false) = (m, c) := by
          simpa using h
        exact (congrArg Prod.fst hmc).symm
      obtain ⟨d, hd⟩ := List.isPrefixOf_iff_prefix.mp h2
      have hdrop : s.drop 2 = d := by rw [← hd]; rfl
      have hd_ne : d ≠ [] := by
        intro h0'
        rw [h0'] at hd
        have hlast2 : pyWs ' ' = false := by
          apply hlast
          rw [← hd]
          rfl
        exact absurd hlast2 (by decide)
      have hd_suffix : d <:+ s := ⟨"- ".toList, hd⟩
      have hd_last : ∀ a, d.getLast? = some a → pyWs a = false := by
        intro a ha
        apply hlast
        rw [getLast?_of_suffix hd_suffix hd_ne]
        exact ha
      rcases List.eq_nil_or_concat d with h0' | ⟨ys, b, hyb⟩
      · exact absurd h0' hd_ne
      have hb : pyWs b = false := by
        apply hd_last
        rw [hyb, List.concat_eq_append, List.getLast?_concat]
      have hbmem : b ∈ d := by rw [hyb]; simp [List.concat_eq_append]
      refine ⟨?_, ?_, ?_⟩
      · rw [hm, hdrop]
        exact strip_ne_nil hbmem hb
      · rw [hm]
        exact strip_idem _
      · rw [hm, hdrop]
        exact (strip_sublist d).trans hd_suffix.sublist
    · rw [if_neg h2] at h
      exact absurd h (by simp)

/-! ## Header recognition and the parser's walk -/

theorem headerOf_some {l T : Line} (h : headerOf l = some T) :
    T ∈ tierNames ∧ strip l = T ++ [':'] := by
  unfold headerOf at h
  refine ⟨List.mem_of_find?_eq_some h, ?_⟩
  have h2 := List.find?_some h
  simp only [beq_iff_eq] at h2
  exact h2

theorem headerOf_none {l : Line} (h : headerOf l = none) :
    ∀ T ∈ tierNames, strip l ≠ T ++ [':'] := by
  intro T hT he
  exact (List.find?_eq_none.mp h T hT) (beq_iff_eq.mpr he)

theorem headerOf_of_strip {l T : Line} (hT : T ∈ tierNames)
    (he : strip l = T ++ [':']) : headerOf l = some T := by
  rcases hh : headerOf l with _ | U
  · exact absurd he (headerOf_none hh T hT)
  · obtain ⟨hU, heU⟩ := headerOf_some hh
    have h2 : U ++ [':'] = T ++ [':'] := by rw [← heU, he]
    have h3 : U = T := by
      have := congrArg List.dropLast h2
      simpa [List.dropLast_concat] using this
    rw [h3]

theorem takeWhile_tier_colon {T : Line} (hT : T ∈ tierNames) :
    (T ++ [':']).takeWhile (· ≠ ':') = T := by
  fin_cases hT <;> decide

theorem breakLine_not_header {l : Line} (hb : isBreakLine l) {T : Line}
    (hT : T ∈ tierNames) : strip l ≠ T ++ [':'] := by
  intro he
  apply hb.2.2.2
  rw [he, takeWhile_tier_colon hT]
  exact hT

theorem headerOf_break_none {l : Line} (hb : isBreakLine l) : headerOf l = none := by
  rcases hh : headerOf l with _ | T
  · rfl
  · obtain ⟨hT, he⟩ := headerOf_some hh
    exact absurd he (breakLine_not_header hb hT)

theorem headerOf_blank_none {l : Line} (hb : strip l = []) : headerOf l = none := by
  unfold headerOf
  rw [List.find?_eq_none]
  intro T _ hbeq
  have := beq_iff_eq.mp hbeq
  rw [hb] at this
  exact absurd this.symm (by simp)

theorem parseBreak_of_break {mk : List Line} {T l : Line} (hT : T ∈ tierNames)
    (hb : isBreakLine l) : parseBreak mk T l := by
  refine ⟨hb.1, hb.2.1, hb.2.2.1, Or.inr ?_⟩
  intro he
  apply hb.2.2.2
  rw [he]
  exact hT

theorem parseTierGo_nil (mk : List Line) (T : Line) (b : Bool) :
    parseTierGo mk T b [] = [] := by
  cases b <;> rfl

theorem parseTierGo_cons_header {mk : List Line} {T l : Line} {rest : List Line}
    (b : Bool) (h : strip l = T ++ [':']) :
    parseTierGo mk T b (l :: rest) = parseTierGo mk T true rest := by
  cases b <;> (simp only [parseTierGo]; rw [if_pos h])

theorem parseTierGo_cons_false {mk : List Line} {T l : Line} {rest : List Line}
    (h : strip l ≠ T ++ [':']) :
    parseTierGo mk T false (l :: rest) = parseTierGo mk T false rest := by
  simp only [parseTierGo]
  rw [if_neg h]
  simp

theorem parseTierGo_cons_break {mk : List Line} {T l : Line} {rest : List Line}
    (h : strip l ≠ T ++ [':']) (hbr : parseBreak mk T l) :
    parseTierGo mk T true (l :: rest) = [] := by
  simp only [parseTierGo]
  rw [if_neg h, if_pos trivial, if_pos hbr]

theorem parseTierGo_cons_entry {mk : List Line} {T l : Line} {rest : List Line}
    (h : strip l ≠ T ++ [':']) (hbr : ¬ parseBreak mk T l) :
    parseTierGo mk T true (l :: rest) =
      (entryOfLine (strip l)).toList ++ parseTierGo mk T true rest := by
  simp only [parseTierGo]
  rw [if_neg h, if_pos trivial, if_neg hbr]

theorem parseTierGo_false_walk {mk : List Line} {T : Line} {xs rest : List Line}
    (hxs : ∀ l ∈ xs, strip l ≠ T ++ [':']) :
    parseTierGo mk T false (xs ++ rest) = parseTierGo mk T false rest := by
  induction xs with
  | nil => rfl
  | cons l xs ih =>
    rw [List.cons_append, parseTierGo_cons_false (hxs l (List.mem_cons_self _ _))]
    exact ih (fun l' hl' => hxs l' (List.mem_cons_of_mem _ hl'))

theorem parseTierGo_true_walk {mk : List Line} {T : Line} {xs rest : List Line}
    (hxs : ∀ l ∈ xs, strip l ≠ T ++ [':'] ∧ (strip l = [] ∨ indentLen l ≠ 0)) :
    parseTierGo mk T true (xs ++ rest) =
      xs.filterMap (fun l => entryOfLine (strip l)) ++ parseTierGo mk T true rest := by
  induction xs with
  | nil => rfl
  | cons l xs ih =>
    obtain ⟨h1, h2⟩ := hxs l (List.mem_cons_self _ _)
    have hnb : ¬ parseBreak mk T l := by
      rintro ⟨hb1, hb2, _, _⟩
      rcases h2 with h | h
      · exact hb1 h
      · exact h hb2
    rw [List.cons_append, parseTierGo_cons_entry h1 hnb,
      ih (fun l' hl' => hxs l' (List.mem_cons_of_mem _ hl')), List.filterMap_cons]
    rcases entryOfLine (strip l) with _ | e <;> simp

theorem parseTierGo_true_stops {mk : List Line} {T : Line} (hT : T ∈ tierNames)
    {rest : List Line} (h : Stops rest) :
    parseTierGo mk T true rest = [] := by
  rcases h with h | ⟨l, ls, rfl, h⟩
  · rw [h]
    exact parseTierGo_nil mk T true
  rcases h with hbr | ⟨hbl, rfl⟩
  · exact parseTierGo_cons_break (breakLine_not_header hbr hT) (parseBreak_of_break hT hbr)
  · have hhd : strip l ≠ T ++ [':'] := by
      rw [hbl]
      intro hcon
      exact absurd hcon.symm (by simp)
    have hnb : ¬ parseBreak mk T l := by
      rintro ⟨hb1, _, _, _⟩
      exact hb1 hbl
    rw [parseTierGo_cons_entry hhd hnb, hbl]
    simp [entryOfLine, parseTierGo_nil]

/-! ## Facts about the rewriter's body scan -/

theorem bodyLen_cons_break {l : Line} {rest : List Line} (h : isBreakLine l) :
    bodyLen (l :: rest) = 0 := by
  obtain ⟨h1, h2, h3, h4⟩ := h
  simp only [bodyLen]
  rw [if_neg h1, if_pos ⟨h2, h3, h4⟩]

theorem bodyLen_cons_content {l : Line} {rest : List Line} (h1 : strip l ≠ [])
    (h2 : ¬ isBreakLine l) : bodyLen (l :: rest) = 1 + bodyLen rest := by
  simp only [bodyLen]
  rw [if_neg h1, if_neg ?hc]
  case hc =>
    rintro ⟨hb2, hb3, hb4⟩
    exact h2 ⟨h1, hb2, hb3, hb4⟩

theorem bodyLen_cons_blank {l : Line} {rest : List Line} (h : strip l = []) :
    bodyLen (l :: rest) = if rest = [] then 0 else 1 + bodyLen rest := by
  simp only [bodyLen]
  rw [if_pos h]

theorem bodyLen_append_body {body rest : List Line}
    (hb : ∀ l ∈ body, strip l ≠ [] ∧ indentLen l ≠ 0) :
    bodyLen (body ++ rest) = body.length + bodyLen rest := by
  induction body with
  | nil => simp
  | cons l bs ih =>
    obtain ⟨h1, h2⟩ := hb l (List.mem_cons_self _ _)
    rw [List.cons_append,
      bodyLen_cons_content h1 (fun hbr => h2 hbr.2.1),
      ih (fun l' hl' => hb l' (List.mem_cons_of_mem _ hl'))]
    simp
    omega

theorem bodyLen_eq_zero_of_stops {rest : List Line} (h : Stops rest) :
    bodyLen rest = 0 := by
  rcases h with h | ⟨l, ls, rfl, h⟩
  · rw [h]
    rfl
  rcases h with hbr | ⟨hbl, rfl⟩
  · exact bodyLen_cons_break hbr
  · rw [bodyLen_cons_blank hbl]
    simp

theorem stops_drop_bodyLen : ∀ rest : List Line, Stops (rest.drop (bodyLen rest)) := by
  intro rest
  induction rest with
  | nil => exact Or.inl rfl
  | cons l rs ih =>
    by_cases hbl : strip l = []
    · rcases rs with _ | ⟨l2, rs2⟩
      · rw [bodyLen_cons_blank hbl, if_pos rfl]
        exact Or.inr ⟨l, [], rfl, Or.inr ⟨hbl, rfl⟩⟩
      · rw [bodyLen_cons_blank hbl, if_neg (by simp), Nat.add_comm,
          List.drop_succ_cons]
        exact ih
    · by_cases hbr : isBreakLine l
      · rw [bodyLen_cons_break hbr]
        exact Or.inr ⟨l, rs, rfl, Or.inl hbr⟩
      · rw [bodyLen_cons_content hbl hbr, Nat.add_comm, List.drop_succ_cons]
        exact ih

/-! ## Unfolding the rewriter -/

theorem saveGo_nil (tc : Line → List TierEntry) (nt : Line → List Line) (f : Nat) :
    saveGo tc nt f [] = [] := by
  cases f <;> rfl

theorem saveGo_fuel_irrel (tc : Line → List TierEntry) (nt : Line → List Line) :
    ∀ f₁ f₂ (lines : List Line), lines.length ≤ f₁ → lines.length ≤ f₂ →
      saveGo tc nt f₁ lines = saveGo tc nt f₂ lines := by
  intro f₁
  induction f₁ with
  | zero =>
    intro f₂ lines h1 _
    have h0 : lines = [] := by
      cases lines with
      | nil => rfl
      | cons l ls => simp at h1
    rw [h0, saveGo_nil, saveGo_nil]
  | succ f ih =>
    intro f₂ lines h1 h2
    cases lines with
    | nil => rw [saveGo_nil, saveGo_nil]
    | cons l rest =>
      cases f₂ with
      | zero => simp at h2
      | succ f₂' =>
        have hr1 : rest.length ≤ f := by simpa using h1
        have hr2 : rest.length ≤ f₂' := by simpa using h2
        have hd1 : (rest.drop (bodyLen rest)).length ≤ f :=
          le_trans ((List.drop_sublist _ _).length_le) hr1
        have hd2 : (rest.drop (bodyLen rest)).length ≤ f₂' :=
          le_trans ((List.drop_sublist _ _).length_le) hr2
        cases hh : headerOf l with
        | none =>
          simp only [saveGo, hh]
          rw [ih f₂' rest hr1 hr2]
        | some T =>
          simp only [saveGo, hh]
          rw [ih f₂' (rest.drop (bodyLen rest)) hd1 hd2]

theorem save_cons_none (tc : Line → List TierEntry) (nt : Line → List Line)
    {l : Line} {rest : List Line} (h : headerOf l = none) :
    save_config_with_comments tc nt (l :: rest) =
      l :: save_config_with_comments tc nt rest := by
  unfold save_config_with_comments
  simp only [List.length_cons, saveGo, h]

theorem save_cons_some (tc : Line → List TierEntry) (nt : Line → List Line)
    {l : Line} {rest : List Line} {T : Line} (h : headerOf l = some T) :
    save_config_with_comments tc nt (l :: rest) =
      l :: (merge_models_with_comments (tc T) (nt T) ++
        save_config_with_comments tc nt (rest.drop (bodyLen rest))) := by
  unfold save_config_with_comments
  simp only [List.length_cons, saveGo, h]
  rw [saveGo_fuel_irrel tc nt rest.length (rest.drop (bodyLen rest)).length
    (rest.drop (bodyLen rest)) ((List.drop_sublist _ _).length_le) le_rfl]

/-! ## The rewriter's frame property (claim C3) and output shape -/

theorem rewriteFrame_save (tc : Line → List TierEntry) (nt : Line → List Line) :
    ∀ (n : Nat) (lines : List Line), lines.length ≤ n →
      RewriteFrame tc nt lines (save_config_with_comments tc nt lines) := by
  intro n
  induction n with
  | zero =>
    intro lines h1
    have h0 : lines = [] := by
      cases lines with
      | nil => rfl
      | cons l ls => simp at h1
    rw [h0]
    exact RewriteFrame.nil
  | succ n ih =>
    intro lines h1
    cases lines with
    | nil => exact RewriteFrame.nil
    | cons l rest =>
      cases hh : headerOf l with
      | none =>
        rw [save_cons_none tc nt hh]
        exact RewriteFrame.copy hh (ih rest (by simpa using h1))
      | some T =>
        rw [save_cons_some tc nt hh]
        refine RewriteFrame.tier hh (ih (rest.drop (bodyLen rest)) ?_)
        exact le_trans ((List.drop_sublist _ _).length_le) (by simpa using h1)

theorem save_nil (tc : Line → List TierEntry) (nt : Line → List Line) :
    save_config_with_comments tc nt [] = [] := rfl

/-- Every output line is either copied from the input or produced by the
merger for one of the five tiers. -/
theorem mem_save (tc : Line → List TierEntry) (nt : Line → List Line) :
    ∀ (n : Nat) (lines : List Line), lines.length ≤ n →
      ∀ l ∈ save_config_with_comments tc nt lines,
        l ∈ lines ∨ ∃ T ∈ tierNames, l ∈ merge_models_with_comments (tc T) (nt T) := by
  intro n
  induction n with
  | zero =>
    intro lines h1 l hl
    have h0 : lines = [] := by
      cases lines with
      | nil => rfl
      | cons l' ls => simp at h1
    rw [h0, save_nil] at hl
    exact absurd hl (by simp)
  | succ n ih =>
    intro lines h1 l hl
    cases lines with
    | nil =>
      rw [save_nil] at hl
      exact absurd hl (by simp)
    | cons l0 rest =>
      cases hh : headerOf l0 with
      | none =>
        rw [save_cons_none tc nt hh] at hl
        rcases List.mem_cons.mp hl with rfl | hl'
        · exact Or.inl (List.mem_cons_self _ _)
        · rcases ih rest (by simpa using h1) l hl' with h | h
          · exact Or.inl (List.mem_cons_of_mem _ h)
          · exact Or.inr h
      | some T =>
        rw [save_cons_some tc nt hh] at hl
        rcases List.mem_cons.mp hl with rfl | hl'
        · exact Or.inl (List.mem_cons_self _ _)
        · rcases List.mem_append.mp hl' with h | h
          · exact Or.inr ⟨T, (headerOf_some hh).1, h⟩
          · rcases ih (rest.drop (bodyLen rest))
              (le_trans ((List.drop_sublist _ _).length_le) (by simpa using h1)) l h with
              h2 | h2
            · exact Or.inl (List.mem_cons_of_mem _
                ((List.drop_sublist _ _).subset h2))
            · exact Or.inr h2

/-- Claim C3: the rewriter replaces only each tier's body line range;
every line outside the tier bodies — blank lines, other top-level keys,
their comments, and the tier headers themselves — is copied byte-identically
(constructor `copy` and the header position of constructor `tier` of
`RewriteFrame` reuse the input line itself), and the only inserted lines are
the per-tier merger outputs. -/
theorem C3_frame_invariance (tier_comments : Line → List TierEntry)
    (new_tiers : Line → List Line) (lines : List Line) :
    RewriteFrame tier_comments new_tiers lines
        (save_config_with_comments tier_comments new_tiers lines) ∧
    ∀ l ∈ save_config_with_comments tier_comments new_tiers lines,
      l ∈ lines ∨ ∃ T ∈ tierNames,
        l ∈ merge_models_with_comments (tier_comments T) (new_tiers T) :=
  ⟨rewriteFrame_save tier_comments new_tiers lines.length lines le_rfl,
    mem_save tier_comments new_tiers lines.length lines le_rfl⟩

/-! ## The canonical shape of a freshly rewritten file -/

theorem stops_save {tc : Line → List TierEntry} {nt : Line → List Line}
    {rest : List Line} (h : Stops rest) :
    Stops (save_config_with_comments tc nt rest) := by
  rcases h with h | ⟨l, ls, rfl, h⟩
  · rw [h, save_nil]
    exact Or.inl rfl
  rcases h with hbr | ⟨hbl, rfl⟩
  · rw [save_cons_none tc nt (headerOf_break_none hbr)]
    exact Or.inr ⟨l, _, rfl, Or.inl hbr⟩
  · rw [save_cons_none tc nt (headerOf_blank_none hbl), save_nil]
    exact Or.inr ⟨l, [], rfl, Or.inr ⟨hbl, rfl⟩⟩

theorem canon_save (tc : Line → List TierEntry) (nt : Line → List Line) :
    ∀ (n : Nat) (lines : List Line), lines.length ≤ n →
      Canon (fun T => merge_models_with_comments (tc T) (nt T))
        (save_config_with_comments tc nt lines) := by
  intro n
  induction n with
  | zero =>
    intro lines h1
    have h0 : lines = [] := by
      cases lines with
      | nil => rfl
      | cons l ls => simp at h1
    rw [h0, save_nil]
    exact Canon.nil
  | succ n ih =>
    intro lines h1
    cases lines with
    | nil =>
      rw [save_nil]
      exact Canon.nil
    | cons l rest =>
      cases hh : headerOf l with
      | none =>
        rw [save_cons_none tc nt hh]
        exact Canon.copy hh (ih rest (by simpa using h1))
      | some T =>
        rw [save_cons_some tc nt hh]
        refine Canon.block hh ?_ ?_
        · exact stops_save (stops_drop_bodyLen rest)
        · exact ih (rest.drop (bodyLen rest))
            (le_trans ((List.drop_sublist _ _).length_le) (by simpa using h1))

/-! ## Re-parsing a canonical file -/

theorem parse_canon {B : Line → List Line} {mk : List Line} {T : Line}
    (hT : T ∈ tierNames)
    (hgood : ∀ U ∈ tierNames, ∀ l ∈ B U,
      strip l ≠ [] ∧ indentLen l ≠ 0 ∧ headerOf l = none) :
    ∀ {R : List Line}, Canon B R → (∃ l ∈ R, strip l = T ++ [':']) →
      parseTierGo mk T false R = (B T).filterMap (fun l => entryOfLine (strip l)) := by
  intro R hcanon
  induction hcanon with
  | nil => intro h; exact absurd h (by simp)
  | @copy l ls hl hls ih =>
    intro hex
    rw [parseTierGo_cons_false (headerOf_none hl T hT)]
    apply ih
    rcases hex with ⟨l', hl', he'⟩
    rcases List.mem_cons.mp hl' with rfl | h
    · exact absurd he' (headerOf_none hl T hT)
    · exact ⟨l', h, he'⟩
  | @block l U ls hl hstop hls ih =>
    intro hex
    obtain ⟨hU, heU⟩ := headerOf_some hl
    by_cases hUT : U = T
    · subst hUT
      rw [parseTierGo_cons_header false heU]
      have hbody : ∀ l' ∈ B U, strip l' ≠ U ++ [':'] ∧
          (strip l' = [] ∨ indentLen l' ≠ 0) := by
        intro l' hl'
        obtain ⟨h1, h2, h3⟩ := hgood U hU l' hl'
        exact ⟨headerOf_none h3 U hU, Or.inr h2⟩
      rw [parseTierGo_true_walk hbody, parseTierGo_true_stops hU hstop]
      simp
    · rw [parseTierGo_cons_false (by
        rw [heU]
        intro hcon
        exact hUT (by
          have := congrArg List.dropLast hcon
          simpa [List.dropLast_concat] using this))]
      rw [parseTierGo_false_walk (fun l' hl' =>
        headerOf_none (hgood U hU l' hl').2.2 T hT)]
      apply ih
      rcases hex with ⟨l', hl', he'⟩
      rcases List.mem_cons.mp hl' with rfl | h
      · exact absurd he' (by rw [heU]; intro hcon; exact hUT (by
          have := congrArg List.dropLast hcon
          simpa [List.dropLast_concat] using this))
      · rcases List.mem_append.mp h with h2 | h2
        · exact absurd he' (headerOf_none (hgood U hU l' h2).2.2 T hT)
        · exact ⟨l', h2, he'⟩

/-! ## Re-parsing the merger's own output -/

theorem filterMap_eq_self_of {α : Type} {f : α → Option α} :
    ∀ {l : List α}, (∀ a ∈ l, f a = some a) → l.filterMap f = l := by
  intro l
  induction l with
  | nil => intro _; rfl
  | cons a as ih =>
    intro h
    rw [List.filterMap_cons, h a (List.mem_cons_self _ _),
      ih (fun a' ha' => h a' (List.mem_cons_of_mem _ ha'))]

theorem filterMap_eq_map_of {α β : Type} {f : α → Option β} {g : α → β} :
    ∀ {l : List α}, (∀ a ∈ l, f a = some (g a)) → l.filterMap f = l.map g := by
  intro l
  induction l with
  | nil => intro _; rfl
  | cons a as ih =>
    intro h
    rw [List.filterMap_cons, h a (List.mem_cons_self _ _), List.map_cons,
      ih (fun a' ha' => h a' (List.mem_cons_of_mem _ ha'))]

theorem entryOfLine_render {e : TierEntry} (he : GoodEntry e) :
    entryOfLine (strip (renderEntry e)) = some e := by
  obtain ⟨h1, h2, h3⟩ := he
  rcases e with ⟨m, c⟩
  cases c with
  | true =>
    show entryOfLine (strip ("  # - ".toList ++ m)) = some (m, true)
    rw [strip_render_commented h2 h1]
    exact entryOfLine_commented h2 h1
  | false =>
    show entryOfLine (strip ("  - ".toList ++ m)) = some (m, false)
    rw [strip_render_active h2 h1]
    exact entryOfLine_active h2 h1 (h3 rfl)

theorem reparse_merge {tier_entries : List TierEntry} {new_models : List Line}
    (htc : ∀ e ∈ tier_entries, GoodEntry e)
    (hcs : ∀ c ∈ new_models, c ≠ [] ∧ strip c = c ∧ c.head? ≠ some '#') :
    (merge_models_with_comments tier_entries new_models).filterMap
        (fun l => entryOfLine (strip l)) =
      mergedEntries tier_entries new_models := by
  unfold merge_models_with_comments mergedEntries
  rw [List.filterMap_append]
  congr 1
  · rw [List.filterMap_map]
    exact filterMap_eq_self_of (fun e he => entryOfLine_render (htc e he))
  · rw [List.filterMap_map]
    apply filterMap_eq_map_of
    intro c hc
    obtain ⟨h1, h2, h3⟩ := hcs c (newModels_subset c hc)
    show entryOfLine (strip ("  - ".toList ++ c)) = some (c, false)
    rw [strip_render_active h2 h1]
    exact entryOfLine_active h2 h1 h3

/-- Merging the re-parsed entries of a merged tier with the same candidates
reproduces the merged tier verbatim. -/
theorem merge_mergedEntries (tier_entries : List TierEntry)
    (new_models : List Line) :
    merge_models_with_comments (mergedEntries tier_entries new_models) new_models =
      merge_models_with_comments tier_entries new_models := by
  have hadded : (mergedEntries tier_entries new_models).map
      (fun e => normalize_model_id e.1) =
      tier_entries.map (fun e => normalize_model_id e.1) ++
        (newModels (tier_entries.map (fun e => normalize_model_id e.1))
          new_models).map normalize_model_id := by
    unfold mergedEntries
    rw [List.map_append, List.map_map]
    rfl
  have hnil : newModels ((mergedEntries tier_entries new_models).map
      (fun e => normalize_model_id e.1)) new_models = [] := by
    apply newModels_eq_nil_of_all_skipped
    intro c hc
    rw [hadded]
    rcases @mem_norm_newModels
        (tier_entries.map (fun e => normalize_model_id e.1)) _ _ hc with h | h
    · exact List.mem_append_left _ h
    · exact List.mem_append_right _ h
  unfold merge_models_with_comments
  rw [hnil]
  simp only [List.map_nil, List.append_nil]
  unfold mergedEntries
  rw [List.map_append, List.map_map]
  rfl

/-- Every line of a merged tier body is non-blank, indented, and no header. -/
theorem merge_line_good {tier_entries : List TierEntry} {new_models : List Line}
    (htc : ∀ e ∈ tier_entries, e.1 ≠ [] ∧ strip e.1 = e.1)
    (hcs : ∀ c ∈ new_models, c ≠ [] ∧ strip c = c) :
    ∀ l ∈ merge_models_with_comments tier_entries new_models,
      strip l ≠ [] ∧ indentLen l ≠ 0 ∧ headerOf l = none := by
  intro l hl
  unfold merge_models_with_comments at hl
  rcases List.mem_append.mp hl with h | h
  · rcases List.mem_map.mp h with ⟨e, he, rfl⟩
    obtain ⟨h1, h2⟩ := htc e he
    rcases e with ⟨m, c⟩
    cases c with
    | true => exact renderLine_facts_commented h2 h1
    | false => exact renderLine_facts_active h2 h1
  · rcases List.mem_map.mp h with ⟨c, hc, rfl⟩
    obtain ⟨h1, h2⟩ := hcs c (newModels_subset c hc)
    exact renderLine_facts_active h2 h1

/-- No newline character appears in a merged tier body line when none
appears in the entries or candidates. -/
theorem merge_no_nl {tier_entries : List TierEntry} {new_models : List Line}
    (htc : ∀ e ∈ tier_entries, '\n' ∉ e.1)
    (hcs : ∀ c ∈ new_models, '\n' ∉ c) :
    ∀ l ∈ merge_models_with_comments tier_entries new_models, '\n' ∉ l := by
  intro l hl
  unfold merge_models_with_comments at hl
  rcases List.mem_append.mp hl with h | h
  · rcases List.mem_map.mp h with ⟨e, he, rfl⟩
    rcases e with ⟨m, c⟩
    cases c with
    | true =>
      show '\n' ∉ "  # - ".toList ++ m
      intro hmem
      rcases List.mem_append.mp hmem with h2 | h2
      · exact absurd h2 (by decide)
      · exact htc (m, true) he h2
    | false =>
      show '\n' ∉ "  - ".toList ++ m
      intro hmem
      rcases List.mem_append.mp hmem with h2 | h2
      · exact absurd h2 (by decide)
      · exact htc (m, false) he h2
  · rcases List.mem_map.mp h with ⟨c, hc, rfl⟩
    intro hmem
    rcases List.mem_append.mp hmem with h2 | h2
    · exact absurd h2 (by decide)
    · exact hcs c (newModels_subset c hc) h2

/-- Entries produced by the parser have nonempty stripped text drawn from
some input line. -/
theorem parseTierGo_entry_spec {mk : List Line} {T : Line} :
    ∀ {b : Bool} {lines : List Line}, ∀ e ∈ parseTierGo mk T b lines,
      e.1 ≠ [] ∧ strip e.1 = e.1 ∧ ∃ l ∈ lines, e.1.Sublist l := by
  intro b lines
  induction lines generalizing b with
  | nil =>
    intro e he
    rw [parseTierGo_nil] at he
    exact absurd he (by simp)
  | cons l rest ih =>
    intro e he
    by_cases hhd : strip l = T ++ [':']
    · rw [parseTierGo_cons_header b hhd] at he
      obtain ⟨h1, h2, l', hl', h3⟩ := ih e he
      exact ⟨h1, h2, l', List.mem_cons_of_mem _ hl', h3⟩
    · cases b with
      | false =>
        rw [parseTierGo_cons_false hhd] at he
        obtain ⟨h1, h2, l', hl', h3⟩ := ih e he
        exact ⟨h1, h2, l', List.mem_cons_of_mem _ hl', h3⟩
      | true =>
        by_cases hbr : parseBreak mk T l
        · rw [parseTierGo_cons_break hhd hbr] at he
          exact absurd he (by simp)
        · rw [parseTierGo_cons_entry hhd hbr] at he
          rcases List.mem_append.mp he with h | h
          · rcases hent : entryOfLine (strip l) with _ | e'
            · rw [hent] at h
              exact absurd h (by simp)
            · rw [hent] at h
              have he' : e = e' := by simpa using h
              subst he'
              rcases e with ⟨m, c⟩
              obtain ⟨h1, h2, h3⟩ := entryOfLine_spec (strip_idem l) hent
              exact ⟨h1, h2, l, List.mem_cons_self _ _,
                h3.trans (strip_sublist l)⟩
          · obtain ⟨h1, h2, l', hl', h3⟩ := ih e h
            exact ⟨h1, h2, l', List.mem_cons_of_mem _ hl', h3⟩

/-! ## A canonical file is a fixed point of the rewriter -/

theorem save_canon_fixed {B : Line → List Line} {tc₂ : Line → List TierEntry}
    {nt : Line → List Line}
    (hgood : ∀ U ∈ tierNames, ∀ l ∈ B U,
      strip l ≠ [] ∧ indentLen l ≠ 0 ∧ headerOf l = none) :
    ∀ {R : List Line}, Canon B R →
      (∀ T, (∃ l ∈ R, headerOf l = some T) →
        merge_models_with_comments (tc₂ T) (nt T) = B T) →
      save_config_with_comments tc₂ nt R = R := by
  intro R hcanon
  induction hcanon with
  | nil => intro _; rfl
  | @copy l ls hl hls ih =>
    intro hB
    rw [save_cons_none tc₂ nt hl, ih (fun T hT => hB T (by
      rcases hT with ⟨l', hl', he'⟩
      exact ⟨l', List.mem_cons_of_mem _ hl', he'⟩))]
  | @block l U ls hl hstop hls ih =>
    intro hB
    have hU : U ∈ tierNames := (headerOf_some hl).1
    rw [save_cons_some tc₂ nt hl]
    have hlen : bodyLen (B U ++ ls) = (B U).length := by
      rw [bodyLen_append_body (fun l' hl' =>
        ⟨(hgood U hU l' hl').1, (hgood U hU l' hl').2.1⟩),
        bodyLen_eq_zero_of_stops hstop]
      omega
    rw [hlen, List.drop_left]
    rw [ih (fun T hT => hB T (by
      rcases hT with ⟨l', hl', he'⟩
      exact ⟨l', List.mem_cons_of_mem _ (List.mem_append_right _ hl'), he'⟩))]
    rw [hB U ⟨l, List.mem_cons_self _ _, hl⟩]

/-! ## Splitting and joining file content -/

theorem splitNl_ne_nil (s : List Char) : splitNl s ≠ [] := by
  induction s with
  | nil => simp [splitNl]
  | cons c rest ih =>
    cases h : splitNl rest with
    | nil => exact absurd h ih
    | cons l0 ls =>
      by_cases hc : c = '\n' <;> simp [splitNl, h, hc]

theorem splitNl_no_nl (s : List Char) : ∀ l ∈ splitNl s, '\n' ∉ l := by
  induction s with
  | nil =>
    intro l hl
    have h0 : l = ([] : Line) := by simpa [splitNl] using hl
    rw [h0]
    simp
  | cons c rest ih =>
    intro l hl
    cases h : splitNl rest with
    | nil => exact absurd h (splitNl_ne_nil rest)
    | cons l0 ls =>
      rw [show splitNl (c :: rest) =
        if c = '\n' then [] :: l0 :: ls else (c :: l0) :: ls from by
          simp [splitNl, h]] at hl
      by_cases hc : c = '\n'
      · rw [if_pos hc] at hl
        rcases List.mem_cons.mp hl with rfl | hl2
        · simp
        · exact ih l (h ▸ hl2)
      · rw [if_neg hc] at hl
        rcases List.mem_cons.mp hl with rfl | hl2
        · intro hmem
          rcases List.mem_cons.mp hmem with h2 | h2
          · exact hc h2.symm
          · exact ih l0 (h ▸ List.mem_cons_self _ _) h2
        · exact ih l (h ▸ List.mem_cons_of_mem _ hl2)

theorem splitNl_single {x : List Char} (h : '\n' ∉ x) : splitNl x = [x] := by
  induction x with
  | nil => rfl
  | cons c t ih =>
    have hc : c ≠ '\n' := fun hcon => h (hcon ▸ List.mem_cons_self _ _)
    have ht : '\n' ∉ t := fun hmem => h (List.mem_cons_of_mem _ hmem)
    simp [splitNl, ih ht, hc]

theorem splitNl_append_nl {x r : List Char} (h : '\n' ∉ x) :
    splitNl (x ++ '\n' :: r) = x :: splitNl r := by
  induction x with
  | nil =>
    simp only [List.nil_append, splitNl]
    cases hr : splitNl r with
    | nil => exact absurd hr (splitNl_ne_nil r)
    | cons l0 ls => simp
  | cons c t ih =>
    have hc : c ≠ '\n' := fun hcon => h (hcon ▸ List.mem_cons_self _ _)
    have ht : '\n' ∉ t := fun hmem => h (List.mem_cons_of_mem _ hmem)
    rw [List.cons_append]
    cases hsp : splitNl (t ++ '\n' :: r) with
    | nil => exact absurd hsp (splitNl_ne_nil _)
    | cons l0 ls =>
      have h2 := ih ht
      rw [hsp] at h2
      have hl0 : l0 = t := by injection h2
      have hls : ls = splitNl r := by injection h2
      simp [splitNl, hsp, hc, hl0, hls]

theorem splitNl_joinNl : ∀ {xs : List Line}, xs ≠ [] → (∀ l ∈ xs, '\n' ∉ l) →
    splitNl (joinNl xs) = xs := by
  intro xs
  induction xs with
  | nil => intro h _; exact absurd rfl h
  | cons x xs ih =>
    intro _ hnl
    cases xs with
    | nil => exact splitNl_single (hnl x (List.mem_cons_self _ _))
    | cons y ys =>
      have hj : joinNl (x :: y :: ys) = x ++ '\n' :: joinNl (y :: ys) := rfl
      rw [hj, splitNl_append_nl (hnl x (List.mem_cons_self _ _)),
        ih (by simp) (fun l hl => hnl l (List.mem_cons_of_mem _ hl))]

theorem save_ne_nil {tc : Line → List TierEntry} {nt : Line → List Line}
    {lines : List Line} (h : lines ≠ []) :
    save_config_with_comments tc nt lines ≠ [] := by
  cases lines with
  | nil => exact absurd rfl h
  | cons l rest =>
    cases hh : headerOf l with
    | none => rw [save_cons_none tc nt hh]; simp
    | some T => rw [save_cons_some tc nt hh]; simp

/-! ## Claim C1: idempotence of the update pipeline -/

/-- Claim C1 as stated is false: on the file `"easy:\n  -   #foo"` with an
empty candidate list, the first run rewrites the active entry `#foo` to
`  - #foo`, which the second run's parser classifies as a *comment*
(`stripped.startswith('- #')`), so the second run emits `  # - foo` — the
outputs of the first and second run differ byte for byte. -/
theorem C1_counterexample :
    updateContent [] (fun _ => [])
        (updateContent [] (fun _ => []) ("easy:\n  -   #foo".toList)) ≠
      updateContent [] (fun _ => []) ("easy:\n  -   #foo".toList) := by
  decide

/-- Claim C1, amended: the update pipeline (parse the tier entries, merge the
candidates, rewrite the tier bodies) is idempotent — a second run with the
same candidate lists reproduces the first run's output byte-identically —
provided no active entry extracted from the file has model text beginning
with `#` (such text is re-classified as a comment on the second run), and
every candidate is a nonempty whitespace-stripped newline-free string not
beginning with `#` (the pipeline re-emits such candidates verbatim).  The
second run's structural-parse key set `mk₂` is arbitrary: on a freshly
rewritten file the tier scan never consults it. -/
theorem C1_idempotent (mk₁ mk₂ : List Line) (new_tiers : Line → List Line)
    (content : List Char)
    (hent : ∀ T ∈ tierNames, ∀ e ∈ parse_tier_comments mk₁ T (splitNl content),
      e.2 = false → e.1.head? ≠ some '#')
    (hcand : ∀ T ∈ tierNames, ∀ c ∈ new_tiers T,
      c ≠ [] ∧ strip c = c ∧ c.head? ≠ some '#' ∧ '\n' ∉ c) :
    updateContent mk₂ new_tiers (updateContent mk₁ new_tiers content) =
      updateContent mk₁ new_tiers content := by
  set lines := splitNl content with hlines
  set tc₁ : Line → List TierEntry := fun T => parse_tier_comments mk₁ T lines
    with htc₁
  set R := save_config_with_comments tc₁ new_tiers lines with hR
  have hcontent1 : updateContent mk₁ new_tiers content = joinNl R := rfl
  -- goodness of the first run's parsed entries
  have htcGood : ∀ T ∈ tierNames, ∀ e ∈ tc₁ T, GoodEntry e := by
    intro T hT e he
    obtain ⟨h1, h2, _⟩ := parseTierGo_entry_spec e he
    exact ⟨h1, h2, fun hc => hent T hT e he hc⟩
  have htcBase : ∀ T ∈ tierNames, ∀ e ∈ tc₁ T, e.1 ≠ [] ∧ strip e.1 = e.1 := by
    intro T hT e he
    obtain ⟨h1, h2, _⟩ := parseTierGo_entry_spec e he
    exact ⟨h1, h2⟩
  have hcsBase : ∀ T ∈ tierNames, ∀ c ∈ new_tiers T, c ≠ [] ∧ strip c = c := by
    intro T hT c hc
    obtain ⟨h1, h2, _, _⟩ := hcand T hT c hc
    exact ⟨h1, h2⟩
  -- the merged bodies are good body lines
  have hGoodB : ∀ U ∈ tierNames,
      ∀ l ∈ merge_models_with_comments (tc₁ U) (new_tiers U),
        strip l ≠ [] ∧ indentLen l ≠ 0 ∧ headerOf l = none := by
    intro U hU
    exact merge_line_good (htcBase U hU) (hcsBase U hU)
  -- the first run's output is canonical
  have hcanon : Canon (fun T => merge_models_with_comments (tc₁ T) (new_tiers T)) R :=
    canon_save tc₁ new_tiers lines.length lines le_rfl
  -- no newline occurs in any line of the first run's output
  have hRnl : ∀ l ∈ R, '\n' ∉ l := by
    intro l hl
    rcases mem_save tc₁ new_tiers lines.length lines le_rfl l hl with h | ⟨T, hT, h⟩
    · exact splitNl_no_nl content l h
    · refine merge_no_nl ?_ ?_ l h
      · intro e he
        obtain ⟨_, _, l', hl', hsub⟩ := parseTierGo_entry_spec e he
        intro hmem
        exact splitNl_no_nl content l' hl' (hsub.subset hmem)
      · intro c hc
        exact (hcand T hT c hc).2.2.2
  have hRne : R ≠ [] := save_ne_nil (splitNl_ne_nil content)
  -- the second run re-reads exactly the lines of R
  have hsplit : splitNl (joinNl R) = R := splitNl_joinNl hRne hRnl
  -- and rewrites them to themselves
  have hfix : save_config_with_comments
      (fun T => parse_tier_comments mk₂ T R) new_tiers R = R := by
    apply save_canon_fixed hGoodB hcanon
    intro T hT
    rcases hT with ⟨l, hlR, hls⟩
    have hTmem : T ∈ tierNames := (headerOf_some hls).1
    have hparse : parseTierGo mk₂ T false R =
        (merge_models_with_comments (tc₁ T) (new_tiers T)).filterMap
          (fun l => entryOfLine (strip l)) :=
      parse_canon hTmem hGoodB hcanon ⟨l, hlR, (headerOf_some hls).2⟩
    have hreparse : (merge_models_with_comments (tc₁ T) (new_tiers T)).filterMap
        (fun l => entryOfLine (strip l)) = mergedEntries (tc₁ T) (new_tiers T) :=
      reparse_merge (htcGood T hTmem) (fun c hc =>
        ⟨(hcand T hTmem c hc).1, (hcand T hTmem c hc).2.1, (hcand T hTmem c hc).2.2.1⟩)
    show merge_models_with_comments (parse_tier_comments mk₂ T R) (new_tiers T) =
      merge_models_with_comments (tc₁ T) (new_tiers T)
    have hp : parse_tier_comments mk₂ T R = mergedEntries (tc₁ T) (new_tiers T) := by
      rw [show parse_tier_comments mk₂ T R = parseTierGo mk₂ T false R from rfl,
        hparse, hreparse]
    rw [hp]
    exact merge_mergedEntries (tc₁ T) (new_tiers T)
  calc updateContent mk₂ new_tiers (updateContent mk₁ new_tiers content)
      = joinNl (save_config_with_comments
          (fun T => parse_tier_comments mk₂ T (splitNl (joinNl R)))
          new_tiers (splitNl (joinNl R))) := rfl
    _ = joinNl R := by rw [hsplit, hfix]
    _ = updateContent mk₁ new_tiers content := rfl

/-- Witness: the amended C1 applied at a concrete file and candidate list. -/
theorem C1_idempotent_witness :
    ((∀ T ∈ tierNames,
        ∀ e ∈ parse_tier_comments [] T (splitNl ("easy:\n  - a\ndone: 1".toList)),
          e.2 = false → e.1.head? ≠ some '#') ∧
      (∀ T ∈ tierNames, ∀ c ∈ (fun (_ : Line) => ["openrouter:a/b:free".toList]) T,
        c ≠ [] ∧ strip c = c ∧ c.head? ≠ some '#' ∧ '\n' ∉ c)) ∧
    updateContent ["models".toList] (fun _ => ["openrouter:a/b:free".toList])
        (updateContent [] (fun _ => ["openrouter:a/b:free".toList])
          ("easy:\n  - a\ndone: 1".toList)) =
      updateContent [] (fun _ => ["openrouter:a/b:free".toList])
        ("easy:\n  - a\ndone: 1".toList) :=
  ⟨⟨by decide, by decide⟩,
    C1_idempotent [] ["models".toList] (fun _ => ["openrouter:a/b:free".toList])
      ("easy:\n  - a\ndone: 1".toList) (by decide) (by decide)⟩

/-! ## Claim C2: comment preservation -/

theorem strip_tier_colon {T : Line} (hT : T ∈ tierNames) :
    strip (T ++ [':']) = T ++ [':'] := by
  fin_cases hT <;> decide

/-- Claim C2 as stated is false: in the tier body `["  # note"]` the comment
line does not survive verbatim — the parser extracts `note` via the regex and
the merger re-renders it as `  # - note`. -/
theorem C2_counterexample :
    save_config_with_comments
        (fun T => parse_tier_comments [] T ["easy:".toList, "  # note".toList])
        (fun _ => []) ["easy:".toList, "  # note".toList] =
      ["easy:".toList, "  # - note".toList] ∧
    "  # note".toList ∉
      save_config_with_comments
        (fun T => parse_tier_comments [] T ["easy:".toList, "  # note".toList])
        (fun _ => []) ["easy:".toList, "  # note".toList] := by
  refine ⟨by decide, by decide⟩

/-- Claim C2, amended: within a tier body, each line is classified by
`entryOfLine` in order; every line that begins with a comment marker and
yields extractable text survives the update as a commented entry with that
text, re-rendered in the canonical form `  # - <text>`; all existing
entries are emitted before any new entry, in their original relative order
and original commented/active state; a comment line already in canonical
form is reproduced character for character.  (Blank or unparsable lines —
e.g. a bare `#` — are dropped, and non-canonical spacing is normalized, so
position is preserved only relative to the other surviving entries.) -/
theorem C2_comment_preservation (mk : List Line) (T : Line) (hT : T ∈ tierNames)
    (body new_models : List Line)
    (hind : ∀ l ∈ body, strip l ≠ [] → indentLen l ≠ 0)
    (hhdr : ∀ l ∈ body, ∀ U ∈ tierNames, strip l ≠ U ++ [':']) :
    parse_tier_comments mk T ((T ++ [':']) :: body) =
      body.filterMap (fun l => entryOfLine (strip l)) ∧
    (merge_models_with_comments (body.filterMap (fun l => entryOfLine (strip l)))
        new_models).take (body.filterMap (fun l => entryOfLine (strip l))).length =
      (body.filterMap (fun l => entryOfLine (strip l))).map renderEntry ∧
    (∀ m : Line, strip m = m → m ≠ [] → ∀ l ∈ body, l = "  # - ".toList ++ m →
      entryOfLine (strip l) = some (m, true) ∧ renderEntry (m, true) = l) := by
  refine ⟨?_, ?_, ?_⟩
  · show parseTierGo mk T false ((T ++ [':']) :: body) = _
    rw [parseTierGo_cons_header false (strip_tier_colon hT)]
    have hwalk := @parseTierGo_true_walk mk T body []
      (fun l hl => ⟨hhdr l hl T hT, by
        by_cases hbl : strip l = []
        · exact Or.inl hbl
        · exact Or.inr (hind l hl hbl)⟩)
    rw [List.append_nil] at hwalk
    rw [hwalk, parseTierGo_nil, List.append_nil]
  · unfold merge_models_with_comments
    rw [show (body.filterMap (fun l => entryOfLine (strip l))).length =
      ((body.filterMap (fun l => entryOfLine (strip l))).map renderEntry).length by
        simp]
    exact List.take_left _ _
  · intro m hm hne l _ hform
    subst hform
    constructor
    · rw [strip_render_commented hm hne]
      exact entryOfLine_commented hm hne
    · rfl

/-- Witness: the amended C2 applied at a concrete tier body. -/
theorem C2_comment_preservation_witness :
    (("easy".toList ∈ tierNames) ∧
      (∀ l ∈ ["  # - x".toList, "  - y".toList], strip l ≠ [] → indentLen l ≠ 0) ∧
      (∀ l ∈ ["  # - x".toList, "  - y".toList], ∀ U ∈ tierNames,
        strip l ≠ U ++ [':'])) ∧
    (parse_tier_comments [] ("easy".toList)
        (("easy".toList ++ [':']) :: ["  # - x".toList, "  - y".toList]) =
      ["  # - x".toList, "  - y".toList].filterMap (fun l => entryOfLine (strip l)) ∧
    (merge_models_with_comments
        (["  # - x".toList, "  - y".toList].filterMap (fun l => entryOfLine (strip l)))
        ["z".toList]).take
        (["  # - x".toList, "  - y".toList].filterMap
          (fun l => entryOfLine (strip l))).length =
      (["  # - x".toList, "  - y".toList].filterMap
        (fun l => entryOfLine (strip l))).map renderEntry ∧
    (∀ m : Line, strip m = m → m ≠ [] →
      ∀ l ∈ ["  # - x".toList, "  - y".toList], l = "  # - ".toList ++ m →
        entryOfLine (strip l) = some (m, true) ∧ renderEntry (m, true) = l)) :=
  ⟨⟨by decide, by decide, by decide⟩,
    C2_comment_preservation [] ("easy".toList) (by decide)
      ["  # - x".toList, "  - y".toList] ["z".toList] (by decide) (by decide)⟩

end FreeRide
